import Mathlib

set_option maxHeartbeats 1000000

/-!
# Verification of `huffman_code.py`

A shallow embedding of the Huffman codec in `src/huffman_code.py` together
with proofs of the specification claims.

Modelling conventions:
* Python strings are `List Char`; the `'0'`/`'1'` bit strings produced by the
  encoder are `List Bool` (`'0'` ↦ `false`, `'1'` ↦ `true`).
* Python dicts are insertion-ordered association lists (`dlookup`, `dset`
  mirror `d[k]` reads and `d[k] = v` writes, which keep the position of an
  existing key).
* The module-level mutable `code_dict` is threaded through the functions as
  explicit state.
* Fallible operations (indexing an empty `SortedList`, comparing a `str` with
  a `list`, a missing dict key) return `Except PyErr`.
-/

namespace HuffmanCode

/-- Failure conditions of the Python code.
* `emptyInput` models the `IndexError` raised by `node_list[0]` when the
  frequency table is empty (the spec's `EmptyInput` condition).
* `typeError` models the `TypeError` Python raises when a tuple comparison
  falls through to comparing a `str` with a `list`.
* `keyError` models the `KeyError` of an unguarded dict subscript. -/
inductive PyErr where
  | emptyInput : PyErr
  | typeError : PyErr
  | keyError : PyErr
deriving DecidableEq, Repr

/-- Association-list lookup: Python `d[k]` (as an `Option`, `none` when the
key is absent; `k in d` is `(dlookup d k).isSome`). -/
def dlookup {α β : Type} [DecidableEq α] (d : List (α × β)) (k : α) : Option β :=
  match d with
  | [] => none
  | (k', v) :: rest => if k' = k then some v else dlookup rest k

/-- Python `d[k] = v`: update in place when the key exists (keeping its
insertion position), otherwise append the new binding at the end. -/
def dset {α β : Type} [DecidableEq α] (d : List (α × β)) (k : α) (v : β) :
    List (α × β) :=
  match d with
  | [] => [(k, v)]
  | (k', v') :: rest => if k' = k then (k, v) :: rest else (k', v') :: dset rest k v

/-- The body of the `letter_distribution` loop (lines 18–22): increment an
existing character's count, or start it at `1`. -/
def ld_step (letter_occurrence : List (Char × Nat)) (char : Char) :
    List (Char × Nat) :=
  match dlookup letter_occurrence char with
  | some n => dset letter_occurrence char (n + 1)
  | none => dset letter_occurrence char 1

/-- `letter_distribution` (lines 4–23): count the occurrences of each
character, in first-occurrence order. -/
def letter_distribution (original_string : List Char) : List (Char × Nat) :=
  original_string.foldl ld_step []

/-- The untyped nested-list tree of the Python code: a node is either a bare
character (a leaf) or a two-element list `[left, right]`. -/
inductive HTree where
  | leaf (c : Char) : HTree
  | node (l r : HTree) : HTree
deriving DecidableEq, Repr

/-- The characters at the leaves, left to right. -/
def HTree.leavesOf : HTree → List Char
  | .leaf c => [c]
  | .node l r => l.leavesOf ++ r.leavesOf

/-- A `SortedList` element: `(frequency, character, node_structure)`
(line 44). -/
abbrev Entry := Nat × Char × HTree

/-- Python comparison of two naturals. -/
def cmpNat (a b : Nat) : Ordering :=
  if a < b then .lt else if b < a then .gt else .eq

/-- Python comparison of two single-character strings: by code point. -/
def cmpChar (a b : Char) : Ordering :=
  if a.val < b.val then .lt else if b.val < a.val then .gt else .eq

/-- Python comparison of two node structures.  Comparing a bare character
with a list raises `TypeError`; two lists (always of length two here) are
compared lexicographically. -/
def cmpStruct : HTree → HTree → Except PyErr Ordering
  | .leaf a, .leaf b => .ok (cmpChar a b)
  | .leaf _, .node _ _ => .error .typeError
  | .node _ _, .leaf _ => .error .typeError
  | .node l1 r1, .node l2 r2 =>
    match cmpStruct l1 l2 with
    | .error e => .error e
    | .ok .lt => .ok .lt
    | .ok .gt => .ok .gt
    | .ok .eq => cmpStruct r1 r2

/-- Python comparison of two `(frequency, character, structure)` tuples:
lexicographic, only consulting later components on ties. -/
def cmpEntry (a b : Entry) : Except PyErr Ordering :=
  match cmpNat a.1 b.1 with
  | .lt => .ok .lt
  | .gt => .ok .gt
  | .eq =>
    match cmpChar a.2.1 b.2.1 with
    | .lt => .ok .lt
    | .gt => .ok .gt
    | .eq => cmpStruct a.2.2 b.2.2

/-- `SortedList.add`: insert keeping the list sorted (after any equal
elements, as `bisect_right` does). -/
def slAdd (e : Entry) : List Entry → Except PyErr (List Entry)
  | [] => .ok [e]
  | x :: xs =>
    match cmpEntry e x with
    | .error err => .error err
    | .ok .lt => .ok (e :: x :: xs)
    | .ok .eq =>
      match slAdd e xs with
      | .error err => .error err
      | .ok l => .ok (x :: l)
    | .ok .gt =>
      match slAdd e xs with
      | .error err => .error err
      | .ok l => .ok (x :: l)

/-- Lines 41–44: `node_list = sc.SortedList()` followed by one `add` per
dictionary entry, in dictionary order. -/
def build_node_list (freq : List (Char × Nat)) : Except PyErr (List Entry) :=
  freq.foldlM (fun acc p => slAdd (p.2, p.1, .leaf p.1) acc) []

/-- The `while len(node_list) > 1` loop of `node_reducer` (lines 46–54):
take the two smallest entries, merge them, insert the merged entry back.
`fuel` bounds the number of iterations; every iteration shortens the list by
exactly one, so `node_reducer` passing the list length makes the
fuel-exhausted branch unreachable. -/
def nr_loop : Nat → List Entry → Except PyErr (List Entry)
  | 0, l => .ok l
  | _ + 1, [] => .ok []
  | _ + 1, [e] => .ok [e]
  | fuel + 1, a :: b :: rest =>
    match slAdd (a.1 + b.1, a.2.1, .node a.2.2 b.2.2) rest with
    | .error err => .error err
    | .ok l' => nr_loop fuel l'

/-- `node_reducer` (lines 26–57).  The final `node_list[0][2]` raises an
`IndexError` when the list is empty (empty frequency table). -/
def node_reducer (letter_occurrence_dictionary : List (Char × Nat)) :
    Except PyErr HTree :=
  match build_node_list letter_occurrence_dictionary with
  | .error err => .error err
  | .ok node_list =>
    match nr_loop node_list.length node_list with
    | .error err => .error err
    | .ok [] => .error .emptyInput
    | .ok (e :: _) => .ok e.2.2

/-- The table mapping characters to their bit codes (the module-level
`code_dict`). -/
abbrev CodeDict := List (Char × List Bool)

/-- `code_assigner` (lines 63–96), with the module-level `code_dict` passed
in and returned explicitly.  A bare character at top level (a tree that is a
single leaf) yields the fresh one-entry dict `{c: '1'}` without touching the
shared state; otherwise each child is either recursed into (when it is a
list) or bound in the shared dict (when it is a character), and the shared
dict is returned. -/
def code_assigner : HTree → List Bool → CodeDict → CodeDict
  | .leaf c, _index, _code_dict => [(c, [true])]
  | .node l r, index, code_dict =>
    let d1 :=
      match l with
      | .node _ _ => code_assigner l (index ++ [false]) code_dict
      | .leaf c => dset code_dict c (index ++ [false])
    match r with
    | .node _ _ => code_assigner r (index ++ [true]) d1
    | .leaf c => dset d1 c (index ++ [true])

/-- `huffman_code` (lines 99–115): build the frequency table, reduce it to a
tree, assign codes starting from the empty index.  The first component of
the result is the returned dict, the second the module-level `code_dict`
after the call (unchanged in the single-leaf case, equal to the returned
dict otherwise). -/
def huffman_code (original_string : List Char) (st : CodeDict) :
    Except PyErr (CodeDict × CodeDict) :=
  match node_reducer (letter_distribution original_string) with
  | .error err => .error err
  | .ok root =>
    let result := code_assigner root [] st
    match root with
    | .leaf _ => .ok (result, st)
    | .node _ _ => .ok (result, result)

/-- `huffman_encoding` (lines 118–135): concatenate `char_code[char]` over
the input; a character missing from the table would raise `KeyError`. -/
def huffman_encoding (original_string : List Char) (st : CodeDict) :
    Except PyErr (List Bool × CodeDict) :=
  match huffman_code original_string st with
  | .error err => .error err
  | .ok (char_code, st') =>
    match original_string.foldlM
        (fun encoded_string char =>
          match dlookup char_code char with
          | some code => Except.ok (encoded_string ++ code)
          | none => Except.error PyErr.keyError) [] with
    | .error err => .error err
    | .ok encoded_string => .ok (encoded_string, st')

/-- Line 186: `reverse_code_dict = {v: k for k, v in code_dict.items()}`. -/
def reverse_code_dict (code_dict : CodeDict) : List (List Bool × Char) :=
  code_dict.foldl (fun acc p => dset acc p.2 p.1) []

/-- One iteration of the decoding loop (lines 192–197): append the bit to
the accumulator; on an exact table match emit the character and reset. -/
def decode_step (rev : List (List Bool × Char)) (st : List Char × List Bool)
    (bit : Bool) : List Char × List Bool :=
  let current_code := st.2 ++ [bit]
  match dlookup rev current_code with
  | some ch => (st.1 ++ [ch], [])
  | none => (st.1, current_code)

/-- `huffman_decoding` (lines 171–199): greedy accumulator decoding; the
loop simply ends when the bits run out, discarding any leftover
accumulator. -/
def huffman_decoding (encoded_string : List Bool) (code_dict : CodeDict) :
    List Char :=
  (encoded_string.foldl (decode_step (reverse_code_dict code_dict)) ([], [])).1

/-- One iteration of the decoding loop with the dict subscript modelled as
fallible: `reverse_code_dict[current_code]` would raise `KeyError`, but it
is guarded by the preceding `in` test. -/
def decode_step_run (rev : List (List Bool × Char)) (st : List Char × List Bool)
    (bit : Bool) : Except PyErr (List Char × List Bool) :=
  let current_code := st.2 ++ [bit]
  if (dlookup rev current_code).isSome then
    match dlookup rev current_code with
    | some ch => .ok (st.1 ++ [ch], [])
    | none => .error .keyError
  else
    .ok (st.1, current_code)

/-- `huffman_decoding` with every fallible step explicit, to state that the
function terminates normally on every input. -/
def huffman_decoding_run (encoded_string : List Bool) (code_dict : CodeDict) :
    Except PyErr (List Char) :=
  match encoded_string.foldlM (decode_step_run (reverse_code_dict code_dict))
      ([], []) with
  | .error err => .error err
  | .ok st => .ok st.1

/-- The round trip of the spec, from a fresh interpreter (empty module-level
`code_dict`), evaluating the arguments left to right as Python does:
`huffman_decoding(huffman_encoding(s), huffman_code(s))`. -/
def round_trip (s : List Char) : Except PyErr (List Char) :=
  match huffman_encoding s [] with
  | .error err => .error err
  | .ok (encoded, st1) =>
    match huffman_code s st1 with
    | .error err => .error err
    | .ok (table, _st2) => .ok (huffman_decoding encoded table)

/-! ### Specification-side definitions used to state and prove properties -/

/-- The keys of an association list, in order. -/
def dkeys {α β : Type} (d : List (α × β)) : List α := d.map Prod.fst

/-- The root-to-leaf path of every leaf, left to right
(`false` = left = `'0'`, `true` = right = `'1'`). -/
def HTree.pathsOf : HTree → List (Char × List Bool)
  | .leaf c => [(c, [])]
  | .node l r =>
    (l.pathsOf.map fun p => (p.1, false :: p.2)) ++
      (r.pathsOf.map fun p => (p.1, true :: p.2))

/-- How `code_assigner` treats one child: recurse into a list, bind a bare
character in the shared dict. -/
def assignChild (t : HTree) (index : List Bool) (d : CodeDict) : CodeDict :=
  match t with
  | .node _ _ => code_assigner t index d
  | .leaf c => dset d c index

/-- Record `index ++ path` for every listed `(character, path)` pair, in
order, on top of the dict `d`. -/
def assignAll (ps : List (Char × List Bool)) (index : List Bool) (d : CodeDict) :
    CodeDict :=
  ps.foldl (fun acc p => dset acc p.1 (index ++ p.2)) d

/-- All leaf characters across the node structures of a `SortedList`
state. -/
def allLeaves (L : List Entry) : List Char :=
  L.flatMap (fun e => e.2.2.leavesOf)

/-- Invariant of the `node_reducer` working list: the leaf characters of all
structures are globally distinct, and each entry's character component is a
leaf of its own structure. -/
def EGood (L : List Entry) : Prop :=
  (allLeaves L).Nodup ∧ ∀ e ∈ L, e.2.1 ∈ e.2.2.leavesOf

/-- The code a table assigns to a character (undefined characters get `[]`;
only used beneath a membership hypothesis). -/
def codeFn (d : CodeDict) (c : Char) : List Bool := (dlookup d c).getD []

/-- A code table is prefix-free: entrywise, neither code extends the other. -/
def PFTable (d : CodeDict) : Prop :=
  d.Pairwise fun p q => ¬ p.2 <+: q.2 ∧ ¬ q.2 <+: p.2

/-! ### Definitions for the optimality claim -/

/-- The part of a `SortedList` entry that tuple comparison actually consults
when all characters are distinct: `(frequency, character)`. -/
def keyOf (e : Entry) : Nat × Char := (e.1, e.2.1)

/-- Strict order on `(frequency, character)` keys: by frequency, then by
character code point — the order realised by Python's tuple comparison. -/
def keyLt (a b : Nat × Char) : Prop :=
  a.1 < b.1 ∨ (a.1 = b.1 ∧ a.2.val < b.2.val)

instance (a b : Nat × Char) : Decidable (keyLt a b) := by
  unfold keyLt; infer_instance

/-- The matching non-strict order (`a` is not strictly after `b`). -/
def keyLE (a b : Nat × Char) : Prop := ¬ keyLt b a

/-- Ordered insertion of a key, before the first strictly greater element
(the position `SortedList.add` uses). -/
def kInsert (e : Nat × Char) : List (Nat × Char) → List (Nat × Char)
  | [] => [e]
  | x :: xs => if keyLt e x then e :: x :: xs else x :: kInsert e xs

/-- Sorting by repeated ordered insertion, mirroring how `node_reducer`
fills its `SortedList`. -/
def ksort (l : List (Nat × Char)) : List (Nat × Char) :=
  l.foldl (fun acc e => kInsert e acc) []

/-- The total merge cost of Huffman reduction, computed on
`(frequency, character)` keys alone: repeatedly merge the two smallest
keys, accumulating the merged frequencies. -/
def redCost (l : List (Nat × Char)) : Nat :=
  match l with
  | [] => 0
  | [_] => 0
  | a :: b :: rest => (a.1 + b.1) + redCost (kInsert (a.1 + b.1, a.2) rest)
termination_by l.length
decreasing_by
  have h : ∀ (e : Nat × Char) (m : List (Nat × Char)),
      (kInsert e m).length = m.length + 1 := by
    intro e m
    induction m with
    | nil => rfl
    | cons x xs ih =>
      simp only [kInsert]
      split
      · simp
      · simp [ih]
  simp [h]

/-- The weight of a tree: the total frequency of its leaves. -/
def HTree.weightF (f : Char → Nat) (t : HTree) : Nat := (t.leavesOf.map f).sum

/-- The cost (weighted external path length) of a tree, recursively:
descending one level charges every leaf's frequency once. -/
def HTree.costF (f : Char → Nat) : HTree → Nat
  | .leaf _ => 0
  | .node l r => HTree.costF f l + HTree.costF f r + weightF f l + weightF f r

/-- Expected code length of a code table, weighted by `f`. -/
def tableCost (f : Char → Nat) (d : CodeDict) : Nat :=
  (d.map fun p => f p.1 * p.2.length).sum

/-- Expected code length of an arbitrary code assignment on the symbols
`S`, weighted by `f`. -/
def sCost (f : Char → Nat) (S : List Char) (cd : Char → List Bool) : Nat :=
  (S.map fun c => f c * (cd c).length).sum

/-- A code assignment is prefix-free on the symbols `S`. -/
def PFOn (S : List Char) (cd : Char → List Bool) : Prop :=
  ∀ a ∈ S, ∀ b ∈ S, a ≠ b → ¬ (cd a <+: cd b)

/-- A code assignment gives every symbol of `S` a non-empty code. -/
def NEOn (S : List Char) (cd : Char → List Bool) : Prop :=
  ∀ a ∈ S, cd a ≠ []

/-- The transposition of two characters. -/
def swapCh (a b c : Char) : Char := if c = a then b else if c = b then a else c

/-- Exchange the codes of two symbols. -/
def swapCd (cd : Char → List Bool) (a b : Char) : Char → List Bool :=
  fun c => cd (swapCh a b c)

/-- Point update of a code assignment. -/
def updCd (cd : Char → List Bool) (a : Char) (v : List Bool) :
    Char → List Bool :=
  fun c => if c = a then v else cd c

/-- Point update of a weight function. -/
def updW (f : Char → Nat) (a : Char) (v : Nat) : Char → Nat :=
  fun c => if c = a then v else f c

/-- The cost of the Huffman reduction on symbols `S` weighted by `f`. -/
def hufCostW (f : Char → Nat) (S : List Char) : Nat :=
  redCost (ksort (S.map fun c => (f c, c)))

/-- The frequency-weighted cost contributed by one working-list entry's
subtree. -/
def entryCost (f : Char → Nat) (e : Entry) : Nat := HTree.costF f e.2.2

/-- Total subtree cost over a working list. -/
def sumCost (f : Char → Nat) (L : List Entry) : Nat :=
  (L.map (entryCost f)).sum

/-- Weight invariant of the working list: each entry's stored frequency is
the total frequency of its subtree's leaves. -/
def WInv (f : Char → Nat) (L : List Entry) : Prop :=
  ∀ e ∈ L, e.1 = HTree.weightF f e.2.2

/-- Frequency-weighted cost of a code assignment, measured on a
`(frequency, character)` key list. -/
def klCost (K : List (Nat × Char)) (cd : Char → List Bool) : Nat :=
  (K.map fun k => k.1 * (cd k.2).length).sum

/-! ### Association-list lemmas -/

@[simp]
theorem dkeys_nil {α β : Type} : dkeys ([] : List (α × β)) = [] := rfl

@[simp]
theorem dkeys_cons {α β : Type} (p : α × β) (d : List (α × β)) :
    dkeys (p :: d) = p.1 :: dkeys d := rfl

@[simp]
theorem dkeys_append {α β : Type} (d d' : List (α × β)) :
    dkeys (d ++ d') = dkeys d ++ dkeys d' := by
  simp [dkeys]

theorem mem_dkeys_of_mem {α β : Type} {d : List (α × β)} {k : α} {v : β}
    (h : (k, v) ∈ d) : k ∈ dkeys d :=
  List.mem_map.mpr ⟨(k, v), h, rfl⟩

theorem dlookup_dset_self {α β : Type} [DecidableEq α] (d : List (α × β))
    (k : α) (v : β) : dlookup (dset d k v) k = some v := by
  induction d with
  | nil => simp [dset, dlookup]
  | cons p rest ih =>
    obtain ⟨k', v'⟩ := p
    by_cases h : k' = k
    · simp [dset, h, dlookup]
    · simp [dset, h, dlookup, ih]

theorem dlookup_dset_ne {α β : Type} [DecidableEq α] (d : List (α × β))
    (k k' : α) (v : β) (h : k' ≠ k) :
    dlookup (dset d k v) k' = dlookup d k' := by
  induction d with
  | nil => simp [dset, dlookup, Ne.symm h]
  | cons p rest ih =>
    obtain ⟨a, b⟩ := p
    by_cases ha : a = k
    · subst ha
      simp [dset, dlookup, Ne.symm h]
    · simp [dset, ha, dlookup, ih]

theorem dset_eq_append_of_not_mem {α β : Type} [DecidableEq α]
    (d : List (α × β)) (k : α) (v : β) (h : k ∉ dkeys d) :
    dset d k v = d ++ [(k, v)] := by
  induction d with
  | nil => simp [dset]
  | cons p rest ih =>
    obtain ⟨a, b⟩ := p
    simp at h
    push_neg at h
    simp [dset, Ne.symm h.1, ih h.2]

theorem mem_dkeys_dset {α β : Type} [DecidableEq α] (d : List (α × β))
    (k a : α) (v : β) : a ∈ dkeys (dset d k v) ↔ a ∈ dkeys d ∨ a = k := by
  induction d with
  | nil => simp [dset]
  | cons p rest ih =>
    obtain ⟨a', b'⟩ := p
    by_cases h : a' = k
    · subst h
      simp [dset]
      tauto
    · simp [dset, h] at ih ⊢
      tauto

theorem dkeys_dset_of_mem {α β : Type} [DecidableEq α] (d : List (α × β))
    (k : α) (v : β) (h : k ∈ dkeys d) : dkeys (dset d k v) = dkeys d := by
  induction d with
  | nil => simp at h
  | cons p rest ih =>
    obtain ⟨a, b⟩ := p
    by_cases ha : a = k
    · subst ha
      simp [dset]
    · have h' : k ∈ dkeys rest := by
        rw [dkeys_cons] at h
        rcases List.mem_cons.mp h with h1 | h1
        · exact absurd h1 (Ne.symm ha)
        · exact h1
      simp [dset, ha, ih h']

theorem nodup_dkeys_dset {α β : Type} [DecidableEq α] (d : List (α × β))
    (k : α) (v : β) (h : (dkeys d).Nodup) : (dkeys (dset d k v)).Nodup := by
  by_cases hm : k ∈ dkeys d
  · rw [dkeys_dset_of_mem d k v hm]; exact h
  · rw [dset_eq_append_of_not_mem d k v hm]
    rw [dkeys_append]
    refine List.nodup_append.mpr ⟨h, by simp [dkeys], ?_⟩
    intro a ha hak
    simp [dkeys] at hak
    subst hak
    exact hm ha

theorem dlookup_isSome_iff {α β : Type} [DecidableEq α] (d : List (α × β))
    (k : α) : (dlookup d k).isSome ↔ k ∈ dkeys d := by
  induction d with
  | nil => simp [dlookup]
  | cons p rest ih =>
    obtain ⟨a, b⟩ := p
    by_cases h : a = k
    · simp [dlookup, h]
    · simp [dlookup, h, Ne.symm h, ih]

theorem dlookup_eq_none_iff {α β : Type} [DecidableEq α] (d : List (α × β))
    (k : α) : dlookup d k = none ↔ k ∉ dkeys d := by
  rw [← dlookup_isSome_iff]
  cases dlookup d k <;> simp

theorem mem_of_dlookup_eq_some {α β : Type} [DecidableEq α]
    {d : List (α × β)} {k : α} {v : β} (h : dlookup d k = some v) :
    (k, v) ∈ d := by
  induction d with
  | nil => simp [dlookup] at h
  | cons p rest ih =>
    obtain ⟨a, b⟩ := p
    by_cases ha : a = k
    · subst ha
      simp [dlookup] at h
      simp [h]
    · simp [dlookup, ha] at h
      simp [ih h]

theorem dlookup_of_mem_nodup {α β : Type} [DecidableEq α]
    {d : List (α × β)} {k : α} {v : β} (hnd : (dkeys d).Nodup)
    (hm : (k, v) ∈ d) : dlookup d k = some v := by
  induction d with
  | nil => simp at hm
  | cons p rest ih =>
    obtain ⟨a, b⟩ := p
    rw [dkeys_cons] at hnd
    have hnd1 := List.nodup_cons.mp hnd
    rcases List.mem_cons.mp hm with h | h
    · cases h
      simp [dlookup]
    · have hk : a ≠ k := by
        intro hak
        subst hak
        exact hnd1.1 (mem_dkeys_of_mem h)
      simp [dlookup, hk]
      exact ih hnd1.2 h

theorem dset_eq_self_of_mem {α β : Type} [DecidableEq α]
    {d : List (α × β)} {k : α} {v : β} (hnd : (dkeys d).Nodup)
    (hm : (k, v) ∈ d) : dset d k v = d := by
  induction d with
  | nil => simp at hm
  | cons p rest ih =>
    obtain ⟨a, b⟩ := p
    rw [dkeys_cons] at hnd
    have hnd1 := List.nodup_cons.mp hnd
    rcases List.mem_cons.mp hm with h | h
    · cases h
      simp [dset]
    · have hk : a ≠ k := by
        intro hak
        subst hak
        exact hnd1.1 (mem_dkeys_of_mem h)
      simp [dset, hk]
      exact ih hnd1.2 h

/-! ### `letter_distribution` lemmas -/

theorem ld_step_lookup (d : List (Char × Nat)) (ch c : Char) :
    dlookup (ld_step d ch) c =
      if c = ch then some ((dlookup d ch).getD 0 + 1) else dlookup d c := by
  unfold ld_step
  by_cases h : c = ch
  · subst h
    cases hd : dlookup d c <;> simp [hd, dlookup_dset_self]
  · cases hd : dlookup d ch <;> simp [hd, h, dlookup_dset_ne _ _ _ _ h]

theorem ld_loop_lookup : ∀ (s : List Char) (acc : List (Char × Nat)) (c : Char),
    dlookup (s.foldl ld_step acc) c =
      match dlookup acc c with
      | some n => some (n + s.count c)
      | none => if 0 < s.count c then some (s.count c) else none := by
  intro s
  induction s with
  | nil =>
    intro acc c
    cases h : dlookup acc c <;> simp [h]
  | cons a s' ih =>
    intro acc c
    rw [List.foldl_cons, ih (ld_step acc a) c, ld_step_lookup]
    by_cases hc : c = a
    · subst hc
      simp only [if_pos rfl]
      cases h : dlookup acc c <;>
        simp [h, List.count_cons, Nat.add_comm, Nat.add_assoc, Nat.add_left_comm]
    · simp only [if_neg hc]
      have hcount : (a :: s').count c = s'.count c := by
        simp [List.count_cons, Ne.symm hc, hc]
      rw [hcount]

theorem ld_loop_nodup : ∀ (s : List Char) (acc : List (Char × Nat)),
    (dkeys acc).Nodup → (dkeys (s.foldl ld_step acc)).Nodup := by
  intro s
  induction s with
  | nil => intro acc h; exact h
  | cons a s' ih =>
    intro acc h
    rw [List.foldl_cons]
    apply ih
    unfold ld_step
    cases hd : dlookup acc a <;> exact nodup_dkeys_dset _ _ _ h

theorem letter_distribution_lookup (s : List Char) (c : Char) :
    dlookup (letter_distribution s) c =
      if 0 < s.count c then some (s.count c) else none := by
  unfold letter_distribution
  rw [ld_loop_lookup]
  simp [dlookup]

theorem letter_distribution_nodup (s : List Char) :
    (dkeys (letter_distribution s)).Nodup :=
  ld_loop_nodup s [] (by simp)

theorem mem_dkeys_letter_distribution (s : List Char) (c : Char) :
    c ∈ dkeys (letter_distribution s) ↔ c ∈ s := by
  rw [← dlookup_isSome_iff, letter_distribution_lookup]
  by_cases h : 0 < s.count c
  · simp [h, List.count_pos_iff.mp h]
  · simp [h]
    intro hc
    exact h (List.count_pos_iff.mpr hc)

theorem letter_distribution_val {s : List Char} {c : Char} {n : Nat}
    (h : (c, n) ∈ letter_distribution s) : n = s.count c := by
  have h1 := dlookup_of_mem_nodup (letter_distribution_nodup s) h
  rw [letter_distribution_lookup] at h1
  by_cases hp : 0 < s.count c
  · simp [hp] at h1
    exact h1.symm
  · simp [hp] at h1

theorem letter_distribution_val_pos {s : List Char} {c : Char} {n : Nat}
    (h : (c, n) ∈ letter_distribution s) : 0 < n := by
  rw [letter_distribution_val h]
  exact List.count_pos_iff.mpr
    ((mem_dkeys_letter_distribution s c).mp (mem_dkeys_of_mem h))

/-! ### Tree path lemmas -/

theorem pathsOf_map_fst (t : HTree) : t.pathsOf.map Prod.fst = t.leavesOf := by
  induction t with
  | leaf c => simp [HTree.pathsOf, HTree.leavesOf]
  | node l r ihl ihr =>
    simp only [HTree.pathsOf, HTree.leavesOf, List.map_append, List.map_map]
    rw [show (Prod.fst ∘ fun p : Char × List Bool => (p.1, false :: p.2)) =
        Prod.fst from rfl]
    rw [show (Prod.fst ∘ fun p : Char × List Bool => (p.1, true :: p.2)) =
        Prod.fst from rfl]
    rw [ihl, ihr]

theorem pathsOf_snd_ne_nil (l r : HTree) :
    ∀ p ∈ (HTree.node l r).pathsOf, p.2 ≠ [] := by
  intro p hp
  simp only [HTree.pathsOf, List.mem_append, List.mem_map] at hp
  rcases hp with ⟨q, _, rfl⟩ | ⟨q, _, rfl⟩ <;> simp

theorem pathsOf_pairwise (t : HTree) :
    t.pathsOf.Pairwise fun p q => ¬ p.2 <+: q.2 ∧ ¬ q.2 <+: p.2 := by
  induction t with
  | leaf c => simp [HTree.pathsOf]
  | node l r ihl ihr =>
    simp only [HTree.pathsOf]
    rw [List.pairwise_append]
    refine ⟨?_, ?_, ?_⟩
    · rw [List.pairwise_map]
      refine ihl.imp ?_
      intro p q hpq
      simpa [List.cons_prefix_cons] using hpq
    · rw [List.pairwise_map]
      refine ihr.imp ?_
      intro p q hpq
      simpa [List.cons_prefix_cons] using hpq
    · intro p hp q hq
      simp only [List.mem_map] at hp hq
      obtain ⟨p', _, rfl⟩ := hp
      obtain ⟨q', _, rfl⟩ := hq
      simp [List.cons_prefix_cons]

/-! ### Comparison and `SortedList` insertion lemmas -/

theorem char_eq_of_val_not_lt {a b : Char} (h1 : ¬ a.val < b.val)
    (h2 : ¬ b.val < a.val) : a = b := by
  apply Char.ext
  apply UInt32.ext
  have h1' : ¬ a.val.toNat < b.val.toNat := h1
  have h2' : ¬ b.val.toNat < a.val.toNat := h2
  omega

/-- On entries with distinct characters, Python's tuple comparison never
reaches the (possibly ill-typed) third component and is decided by the
`(frequency, character)` key. -/
theorem cmpEntry_of_char_ne {e x : Entry} (h : e.2.1 ≠ x.2.1) :
    cmpEntry e x = .ok (if keyLt (keyOf e) (keyOf x) then .lt else .gt) := by
  unfold cmpEntry cmpNat cmpChar
  rcases Nat.lt_trichotomy e.1 x.1 with hn | hn | hn
  · have hk : keyLt (keyOf e) (keyOf x) := Or.inl hn
    simp [hn, hk]
  · have hnlt : ¬ e.1 < x.1 := by omega
    have hngt : ¬ x.1 < e.1 := by omega
    by_cases hv : e.2.1.val < x.2.1.val
    · have hk : keyLt (keyOf e) (keyOf x) := Or.inr ⟨hn, hv⟩
      simp [hnlt, hngt, hv, hk]
    · by_cases hv' : x.2.1.val < e.2.1.val
      · have hk : ¬ keyLt (keyOf e) (keyOf x) := by
          intro hk
          simp only [keyLt, keyOf] at hk
          rcases hk with hk | ⟨_, hk⟩
          · exact hnlt hk
          · exact hv hk
        simp [hnlt, hngt, hv, hv', hk]
      · exact absurd (char_eq_of_val_not_lt hv hv') h
  · have hnlt : ¬ e.1 < x.1 := by omega
    have hk : ¬ keyLt (keyOf e) (keyOf x) := by
      intro hk
      simp only [keyLt, keyOf] at hk
      rcases hk with hk | ⟨hk, _⟩ <;> omega
    simp [hnlt, hn, hk]

theorem slAdd_ok_perm : ∀ (L : List Entry) (e : Entry),
    (∀ x ∈ L, e.2.1 ≠ x.2.1) →
    ∃ L', slAdd e L = .ok L' ∧ L'.Perm (e :: L) := by
  intro L
  induction L with
  | nil => intro e _; exact ⟨[e], rfl, List.Perm.refl _⟩
  | cons x xs ih =>
    intro e h
    have hx := h x (by simp)
    rw [slAdd, cmpEntry_of_char_ne hx]
    by_cases hk : keyLt (keyOf e) (keyOf x)
    · rw [if_pos hk]
      exact ⟨e :: x :: xs, rfl, List.Perm.refl _⟩
    · rw [if_neg hk]
      obtain ⟨L'', hL'', hperm⟩ := ih e (fun y hy => h y (by simp [hy]))
      rw [hL'']
      exact ⟨x :: L'', rfl, (hperm.cons x).trans (List.Perm.swap e x xs)⟩

/-- On the `(frequency, character)` keys, `SortedList.add` is the ordered
insertion `kInsert`. -/
theorem slAdd_map_keyOf : ∀ (L : List Entry) (e : Entry) (L' : List Entry),
    (∀ x ∈ L, e.2.1 ≠ x.2.1) → slAdd e L = .ok L' →
    L'.map keyOf = kInsert (keyOf e) (L.map keyOf) := by
  intro L
  induction L with
  | nil =>
    intro e L' _ hok
    simp [slAdd] at hok
    subst hok
    rfl
  | cons x xs ih =>
    intro e L' h hok
    have hx := h x (by simp)
    rw [slAdd, cmpEntry_of_char_ne hx] at hok
    by_cases hk : keyLt (keyOf e) (keyOf x)
    · rw [if_pos hk] at hok
      simp at hok
      subst hok
      simp [kInsert, hk]
    · rw [if_neg hk] at hok
      rcases hrec : slAdd e xs with herr | Lrec
      · rw [hrec] at hok; cases hok
      · rw [hrec] at hok
        simp at hok
        subst hok
        have := ih e Lrec (fun y hy => h y (by simp [hy])) hrec
        simp [kInsert, hk, this]

/-! ### `node_reducer` invariants -/

@[simp]
theorem allLeaves_nil : allLeaves [] = [] := rfl

@[simp]
theorem allLeaves_cons (e : Entry) (L : List Entry) :
    allLeaves (e :: L) = e.2.2.leavesOf ++ allLeaves L := by
  simp [allLeaves]

theorem allLeaves_perm {L L' : List Entry} (h : L.Perm L') :
    (allLeaves L).Perm (allLeaves L') :=
  List.Perm.flatMap_right _ h

theorem EGood_perm {L L' : List Entry} (h : L.Perm L') (hg : EGood L) :
    EGood L' :=
  ⟨(allLeaves_perm h).nodup hg.1, fun e he => hg.2 e (h.symm.subset he)⟩

theorem nr_loop_ok : ∀ (fuel : Nat) (L : List Entry), EGood L →
    ∃ L', nr_loop fuel L = .ok L' ∧ (allLeaves L').Perm (allLeaves L) ∧
      EGood L' ∧ (L.length ≤ fuel → L ≠ [] → L'.length = 1) := by
  intro fuel
  induction fuel with
  | zero =>
    intro L hg
    exact ⟨L, rfl, List.Perm.refl _, hg, fun h1 h2 => by
      cases L with
      | nil => exact absurd rfl h2
      | cons a l => simp at h1⟩
  | succ fuel ih =>
    intro L hg
    match L with
    | [] => exact ⟨[], rfl, List.Perm.refl _, hg, fun _ h2 => absurd rfl h2⟩
    | [e] => exact ⟨[e], rfl, List.Perm.refl _, hg, fun _ _ => rfl⟩
    | a :: b :: rest =>
      have hnodup := hg.1
      rw [allLeaves_cons, allLeaves_cons] at hnodup
      have hsplit := List.nodup_append.mp hnodup
      have hsplit2 := List.nodup_append.mp hsplit.2.1
      have hchars : ∀ x ∈ rest,
          (a.1 + b.1, a.2.1, HTree.node a.2.2 b.2.2).2.1 ≠ x.2.1 := by
        intro x hx
        have hax : a.2.1 ∈ a.2.2.leavesOf := hg.2 a (by simp)
        have hxx : x.2.1 ∈ x.2.2.leavesOf := hg.2 x (by simp [hx])
        have hxall : x.2.1 ∈ allLeaves rest := by
          simp only [allLeaves, List.mem_flatMap]
          exact ⟨x, hx, hxx⟩
        intro heq
        have : a.2.1 ∈ b.2.2.leavesOf ++ allLeaves rest := by
          rw [heq]
          exact List.mem_append_right _ hxall
        exact (List.disjoint_left.mp hsplit.2.2) hax this
      obtain ⟨L1, hAdd, hPerm⟩ := slAdd_ok_perm rest _ hchars
      have hLeavesEq : allLeaves ((a.1 + b.1, a.2.1, HTree.node a.2.2 b.2.2)
          :: rest) = allLeaves (a :: b :: rest) := by
        simp [allLeaves_cons, HTree.leavesOf]
      have hg1 : EGood L1 := by
        apply EGood_perm hPerm.symm
        constructor
        · rw [hLeavesEq]
          exact hg.1
        · intro e he
          rcases List.mem_cons.mp he with he | he
          · subst he
            simp [HTree.leavesOf]
            left
            exact hg.2 a (by simp)
          · exact hg.2 e (by simp [he])
      obtain ⟨L', hLoop, hPerm', hg', hlen'⟩ := ih L1 hg1
      refine ⟨L', ?_, ?_, hg', ?_⟩
      · rw [nr_loop, hAdd]
        exact hLoop
      · refine hPerm'.trans ?_
        refine (allLeaves_perm hPerm).trans ?_
        rw [hLeavesEq]
      · intro hfuel _
        have hL1len : L1.length = rest.length + 1 := hPerm.length_eq
        apply hlen'
        · simp at hfuel
          omega
        · intro hnil
          rw [hnil] at hL1len
          simp at hL1len

/-- Leaf entries built from the frequency table have the table's keys as
their leaves. -/
theorem allLeaves_map_leaf (freq : List (Char × Nat)) :
    allLeaves (freq.map fun p => (p.2, p.1, HTree.leaf p.1)) = dkeys freq := by
  induction freq with
  | nil => rfl
  | cons p rest ih => simp [allLeaves, HTree.leavesOf] at ih ⊢; exact ih

theorem build_node_list_ok :
    ∀ (freq : List (Char × Nat)) (acc : List Entry), EGood acc →
    (∀ c ∈ dkeys freq, c ∉ allLeaves acc) → (dkeys freq).Nodup →
    ∃ L, freq.foldlM (fun acc p => slAdd (p.2, p.1, .leaf p.1) acc) acc = .ok L ∧
      L.Perm (acc ++ freq.map fun p => (p.2, p.1, HTree.leaf p.1)) ∧
      L.map keyOf =
        freq.foldl (fun ks p => kInsert (p.2, p.1) ks) (acc.map keyOf) := by
  intro freq
  induction freq with
  | nil =>
    intro acc hg _ _
    exact ⟨acc, rfl, by simp, rfl⟩
  | cons p rest ih =>
    intro acc hg hdisj hnd
    obtain ⟨c, n⟩ := p
    have hchars : ∀ x ∈ acc, ((n, c, HTree.leaf c) : Entry).2.1 ≠ x.2.1 := by
      intro x hx heq
      have heq' : c = x.2.1 := heq
      have hxx : x.2.1 ∈ x.2.2.leavesOf := hg.2 x hx
      have hmem : x.2.1 ∈ allLeaves acc := by
        simp only [allLeaves, List.mem_flatMap]
        exact ⟨x, hx, hxx⟩
      rw [← heq'] at hmem
      exact hdisj c (by simp) hmem
    obtain ⟨acc1, hAdd, hPerm⟩ := slAdd_ok_perm acc _ hchars
    have hg1 : EGood acc1 := by
      apply EGood_perm hPerm.symm
      constructor
      · rw [allLeaves_cons]
        simp only [HTree.leavesOf]
        rw [List.nodup_append]
        refine ⟨by simp, hg.1, ?_⟩
        intro z hz
        simp at hz
        rw [hz]
        exact hdisj c (by simp)
      · intro e he
        rcases List.mem_cons.mp he with he | he
        · subst he; simp [HTree.leavesOf]
        · exact hg.2 e he
    rw [dkeys_cons] at hnd
    have hnd1 := List.nodup_cons.mp hnd
    have hdisj1 : ∀ c' ∈ dkeys rest, c' ∉ allLeaves acc1 := by
      intro c' hc' hmem
      have : (allLeaves acc1).Perm (c :: allLeaves acc) := by
        have := allLeaves_perm hPerm
        simpa [HTree.leavesOf] using this
      have hmem' : c' ∈ c :: allLeaves acc := this.subset hmem
      rcases List.mem_cons.mp hmem' with h | h
      · exact hnd1.1 (h ▸ hc')
      · exact hdisj c' (by simp [hc']) h
    obtain ⟨L, hFold, hPermL, hKeysL⟩ := ih acc1 hg1 hdisj1 hnd1.2
    refine ⟨L, ?_, ?_, ?_⟩
    · rw [List.foldlM_cons]
      simp only [hAdd]
      exact hFold
    · refine hPermL.trans ?_
      refine (hPerm.append_right _).trans ?_
      simp only [List.map_cons, List.cons_append]
      exact (List.perm_middle).symm
    · rw [List.foldl_cons, hKeysL]
      have hKeys1 : acc1.map keyOf = kInsert (n, c) (acc.map keyOf) :=
        slAdd_map_keyOf acc _ acc1 hchars hAdd
      rw [hKeys1]

/-- For a non-empty frequency table with distinct keys, `node_reducer`
succeeds and returns a tree whose leaves are exactly the table's symbols,
each once. -/
theorem node_reducer_ok {freq : List (Char × Nat)}
    (hnd : (dkeys freq).Nodup) (hne : freq ≠ []) :
    ∃ t, node_reducer freq = .ok t ∧ t.leavesOf.Perm (dkeys freq) ∧
      t.leavesOf.Nodup := by
  obtain ⟨L, hBuild, hPerm, _hKeys⟩ := build_node_list_ok freq [] ⟨by simp, by simp⟩
    (by simp) hnd
  simp only [List.nil_append] at hPerm
  have hgL : EGood L := by
    apply EGood_perm hPerm.symm
    constructor
    · rw [allLeaves_map_leaf]; exact hnd
    · intro e he
      obtain ⟨p, _, rfl⟩ := List.mem_map.mp he
      simp [HTree.leavesOf]
  obtain ⟨L', hLoop, hPermL, hgL', hlen⟩ := nr_loop_ok L.length L hgL
  have hLne : L ≠ [] := by
    intro h
    rw [h] at hPerm
    have := hPerm.length_eq
    simp at this
    cases freq with
    | nil => exact hne rfl
    | cons q qs => simp at this
  have hlen1 := hlen (Nat.le_refl _) hLne
  obtain ⟨e, rfl⟩ := List.length_eq_one.mp hlen1
  refine ⟨e.2.2, ?_, ?_, ?_⟩
  · simp only [node_reducer, build_node_list]
    rw [hBuild]
    simp only
    rw [hLoop]
  · have h1 : allLeaves [e] = e.2.2.leavesOf := by simp
    rw [← h1]
    refine hPermL.trans ?_
    refine (allLeaves_perm hPerm).trans ?_
    rw [allLeaves_map_leaf]
  · have h1 : allLeaves [e] = e.2.2.leavesOf := by simp
    have h2 : (allLeaves [e]).Nodup := hgL'.1
    rwa [h1] at h2

/-! ### `code_assigner` characterisation -/

theorem code_assigner_node (l r : HTree) (index : List Bool) (d : CodeDict) :
    code_assigner (.node l r) index d =
      assignChild r (index ++ [true]) (assignChild l (index ++ [false]) d) := by
  cases l <;> cases r <;> rfl

theorem assignAll_append (ps qs : List (Char × List Bool)) (index : List Bool)
    (d : CodeDict) :
    assignAll (ps ++ qs) index d = assignAll qs index (assignAll ps index d) :=
  List.foldl_append _ _ _ _

theorem assignAll_map_cons (b : Bool) (ps : List (Char × List Bool))
    (index : List Bool) (d : CodeDict) :
    assignAll (ps.map fun p => (p.1, b :: p.2)) index d =
      assignAll ps (index ++ [b]) d := by
  unfold assignAll
  rw [List.foldl_map]
  congr 1
  funext acc p
  rw [← List.append_cons]

theorem assignChild_eq (t : HTree) : ∀ (index : List Bool) (d : CodeDict),
    assignChild t index d = assignAll t.pathsOf index d := by
  induction t with
  | leaf c =>
    intro index d
    simp [assignChild, HTree.pathsOf, assignAll]
  | node l r ihl ihr =>
    intro index d
    show code_assigner (.node l r) index d = _
    rw [code_assigner_node]
    unfold assignChild at ihl ihr ⊢
    rw [ihl, ihr]
    simp only [HTree.pathsOf]
    rw [assignAll_append, assignAll_map_cons, assignAll_map_cons]

theorem code_assigner_node_eq (l r : HTree) (index : List Bool) (d : CodeDict) :
    code_assigner (.node l r) index d =
      assignAll (HTree.node l r).pathsOf index d := by
  have h := assignChild_eq (.node l r) index d
  simpa [assignChild] using h

theorem assignAll_dlookup : ∀ (ps : List (Char × List Bool))
    (index : List Bool) (d : CodeDict) (c : Char), (dkeys ps).Nodup →
    dlookup (assignAll ps index d) c =
      match dlookup ps c with
      | some p => some (index ++ p)
      | none => dlookup d c := by
  intro ps
  induction ps with
  | nil => intro index d c _; simp [assignAll, dlookup]
  | cons p ps ih =>
    intro index d c hnd
    obtain ⟨a, v⟩ := p
    rw [dkeys_cons] at hnd
    have hnd1 := List.nodup_cons.mp hnd
    have hstep : assignAll ((a, v) :: ps) index d =
        assignAll ps index (dset d a (index ++ v)) := rfl
    rw [hstep, ih _ _ _ hnd1.2]
    by_cases hc : c = a
    · subst hc
      have hnone : dlookup ps c = none :=
        (dlookup_eq_none_iff _ _).mpr hnd1.1
      rw [hnone]
      simp [dlookup, dlookup_dset_self]
    · have ha : a ≠ c := fun h => hc h.symm
      rw [show dlookup ((a, v) :: ps) c = dlookup ps c by simp [dlookup, ha]]
      cases h : dlookup ps c
      · simp [dlookup_dset_ne _ _ _ _ hc]
      · simp

theorem mem_dkeys_assignAll : ∀ (ps : List (Char × List Bool))
    (index : List Bool) (d : CodeDict) (c : Char),
    c ∈ dkeys (assignAll ps index d) ↔ c ∈ dkeys d ∨ c ∈ dkeys ps := by
  intro ps
  induction ps with
  | nil => intro index d c; simp [assignAll]
  | cons p ps ih =>
    intro index d c
    have hstep : assignAll (p :: ps) index d =
        assignAll ps index (dset d p.1 (index ++ p.2)) := rfl
    rw [hstep, ih]
    rw [mem_dkeys_dset]
    simp
    tauto

theorem nodup_dkeys_assignAll : ∀ (ps : List (Char × List Bool))
    (index : List Bool) (d : CodeDict), (dkeys d).Nodup →
    (dkeys (assignAll ps index d)).Nodup := by
  intro ps
  induction ps with
  | nil => intro index d h; exact h
  | cons p ps ih =>
    intro index d h
    exact ih _ _ (nodup_dkeys_dset _ _ _ h)

theorem assignAll_fresh : ∀ (ps : List (Char × List Bool))
    (index : List Bool) (d : CodeDict), (dkeys ps).Nodup →
    (∀ k ∈ dkeys ps, k ∉ dkeys d) →
    assignAll ps index d = d ++ ps.map fun p => (p.1, index ++ p.2) := by
  intro ps
  induction ps with
  | nil => intro index d _ _; simp [assignAll]
  | cons p ps ih =>
    intro index d hnd hdisj
    obtain ⟨a, v⟩ := p
    rw [dkeys_cons] at hnd
    have hnd1 := List.nodup_cons.mp hnd
    have hstep : assignAll ((a, v) :: ps) index d =
        assignAll ps index (dset d a (index ++ v)) := rfl
    rw [hstep]
    rw [dset_eq_append_of_not_mem d a _ (hdisj a (by simp))]
    rw [ih index _ hnd1.2 ?_]
    · simp
    · intro k hk
      rw [dkeys_append]
      simp
      push_neg
      constructor
      · exact hdisj k (by simp [hk])
      · intro hka
        exact hnd1.1 (hka ▸ hk)

theorem assignAll_id : ∀ (ps : List (Char × List Bool)) (index : List Bool)
    (d : CodeDict), (dkeys d).Nodup →
    (∀ p ∈ ps, (p.1, index ++ p.2) ∈ d) → assignAll ps index d = d := by
  intro ps
  induction ps with
  | nil => intro index d _ _; rfl
  | cons p ps ih =>
    intro index d hnd hmem
    have hstep : assignAll (p :: ps) index d =
        assignAll ps index (dset d p.1 (index ++ p.2)) := rfl
    rw [hstep, dset_eq_self_of_mem hnd (hmem p (by simp))]
    exact ih index d hnd (fun q hq => hmem q (by simp [hq]))

/-! ### The table built by `huffman_code` from a fresh state -/

/-- From a fresh interpreter state, `huffman_code s` succeeds on non-empty
`s` and returns a table with distinct keys — exactly the characters of `s` —
non-empty codes, and the prefix-free property; calling it again on the
resulting module state returns the same table and state. -/
theorem huffman_code_fresh (s : List Char) (hs : s ≠ []) :
    ∃ T st', huffman_code s [] = .ok (T, st') ∧
      huffman_code s st' = .ok (T, st') ∧
      (dkeys T).Nodup ∧ (∀ c, c ∈ dkeys T ↔ c ∈ s) ∧
      (∀ p ∈ T, p.2 ≠ []) ∧ PFTable T := by
  have hnd := letter_distribution_nodup s
  have hfne : letter_distribution s ≠ [] := by
    cases s with
    | nil => exact absurd rfl hs
    | cons c0 s0 =>
      intro h
      have : c0 ∈ dkeys (letter_distribution (c0 :: s0)) :=
        (mem_dkeys_letter_distribution _ _).mpr (by simp)
      rw [h] at this
      simp at this
  obtain ⟨t, hroot, hperm, hnodupL⟩ := node_reducer_ok hnd hfne
  cases t with
  | leaf c =>
    refine ⟨[(c, [true])], [], ?_, ?_, ?_, ?_, ?_, ?_⟩
    · simp [huffman_code, hroot, code_assigner]
    · simp [huffman_code, hroot, code_assigner]
    · simp
    · intro c'
      have hmi := hperm.mem_iff (a := c')
      simp [HTree.leavesOf] at hmi
      rw [show dkeys [(c, [true])] = [c] from rfl]
      rw [List.mem_singleton, hmi]
      exact mem_dkeys_letter_distribution s c'
    · intro p hp
      simp at hp
      subst hp
      simp
    · simp [PFTable]
  | node l r =>
    have hkeys : dkeys (HTree.node l r).pathsOf = (HTree.node l r).leavesOf := by
      rw [dkeys, pathsOf_map_fst]
    have hndp : (dkeys (HTree.node l r).pathsOf).Nodup := by
      rw [hkeys]; exact hnodupL
    have hT : code_assigner (HTree.node l r) [] [] =
        (HTree.node l r).pathsOf := by
      rw [code_assigner_node_eq, assignAll_fresh _ _ _ hndp (by simp)]
      simp only [List.nil_append]
      exact List.map_id'' (fun p => by simp) _
    refine ⟨(HTree.node l r).pathsOf, (HTree.node l r).pathsOf, ?_, ?_, hndp,
      ?_, pathsOf_snd_ne_nil l r, pathsOf_pairwise _⟩
    · simp [huffman_code, hroot, hT]
    · have hT2 : code_assigner (HTree.node l r) [] (HTree.node l r).pathsOf =
          (HTree.node l r).pathsOf := by
        rw [code_assigner_node_eq]
        exact assignAll_id _ _ _ hndp (fun p hp => by simpa using hp)
      simp [huffman_code, hroot, hT2]
    · intro c'
      rw [hkeys]
      rw [hperm.mem_iff]
      exact mem_dkeys_letter_distribution s c'

/-! ### Encoding -/

theorem encode_fold (T : CodeDict) : ∀ (ws : List Char) (acc : List Bool),
    (∀ c ∈ ws, c ∈ dkeys T) →
    (ws.foldlM (fun encoded_string char =>
        match dlookup T char with
        | some code => Except.ok (encoded_string ++ code)
        | none => Except.error PyErr.keyError) acc : Except PyErr (List Bool)) =
      .ok (acc ++ (ws.map (codeFn T)).flatten) := by
  intro ws
  induction ws with
  | nil => intro acc _; simp; rfl
  | cons c ws' ih =>
    intro acc hmem
    have hlook : dlookup T c = some (codeFn T c) := by
      have := (dlookup_isSome_iff T c).mpr (hmem c (by simp))
      cases h : dlookup T c
      · rw [h] at this; simp at this
      · simp [codeFn, h]
    rw [List.foldlM_cons, hlook]
    show (Except.ok (acc ++ codeFn T c) >>= fun b =>
      ws'.foldlM (fun encoded_string char =>
        match dlookup T char with
        | some code => Except.ok (encoded_string ++ code)
        | none => Except.error PyErr.keyError) b) = _
    rw [show ∀ (b : List Bool) (g : List Bool → Except PyErr (List Bool)),
        (Except.ok b >>= g) = g b from fun _ _ => rfl]
    rw [ih (acc ++ codeFn T c) (fun c' hc' => hmem c' (by simp [hc']))]
    simp

/-! ### Decoding -/

theorem snd_nodup_of_PFTable {T : CodeDict} (hpf : PFTable T) :
    (T.map Prod.snd).Nodup := by
  rw [List.Nodup, List.pairwise_map]
  exact hpf.imp fun h heq => h.1 (by rw [heq])

theorem rev_fold_mem_dkeys : ∀ (d : CodeDict) (acc : List (List Bool × Char))
    (q : List Bool),
    q ∈ dkeys (d.foldl (fun acc p => dset acc p.2 p.1) acc) ↔
      q ∈ dkeys acc ∨ q ∈ d.map Prod.snd := by
  intro d
  induction d with
  | nil => intro acc q; simp
  | cons p d' ih =>
    intro acc q
    rw [List.foldl_cons, ih, mem_dkeys_dset]
    simp
    tauto

theorem mem_dkeys_reverse_code_dict (d : CodeDict) (q : List Bool) :
    q ∈ dkeys (reverse_code_dict d) ↔ q ∈ d.map Prod.snd := by
  unfold reverse_code_dict
  rw [rev_fold_mem_dkeys]
  simp

theorem dlookup_reverse_none {d : CodeDict} {q : List Bool}
    (h : ∀ p ∈ d, p.2 ≠ q) : dlookup (reverse_code_dict d) q = none := by
  rw [dlookup_eq_none_iff, mem_dkeys_reverse_code_dict]
  intro hq
  obtain ⟨p, hp, hpq⟩ := List.mem_map.mp hq
  exact h p hp hpq

theorem rev_fold_fresh : ∀ (d : CodeDict) (acc : List (List Bool × Char)),
    (d.map Prod.snd).Nodup → (∀ p ∈ d, p.2 ∉ dkeys acc) →
    d.foldl (fun acc p => dset acc p.2 p.1) acc =
      acc ++ d.map fun p => (p.2, p.1) := by
  intro d
  induction d with
  | nil => intro acc _ _; simp
  | cons p d' ih =>
    intro acc hnd hdisj
    obtain ⟨c, v⟩ := p
    rw [List.map_cons] at hnd
    have hnd1 := List.nodup_cons.mp hnd
    rw [List.foldl_cons]
    rw [show dset acc ((c, v) : Char × List Bool).2 (c, v).1 =
        acc ++ [(v, c)] from dset_eq_append_of_not_mem _ _ _
          (hdisj (c, v) (by simp))]
    rw [ih (acc ++ [(v, c)]) hnd1.2 ?_]
    · simp
    · intro q hq
      rw [dkeys_append]
      simp
      push_neg
      refine ⟨hdisj q (by simp [hq]), ?_⟩
      intro hqv
      apply hnd1.1
      rw [← hqv]
      exact List.mem_map.mpr ⟨q, hq, rfl⟩

theorem reverse_code_dict_eq {d : CodeDict}
    (hvals : (d.map Prod.snd).Nodup) :
    reverse_code_dict d = d.map fun p => (p.2, p.1) := by
  unfold reverse_code_dict
  rw [rev_fold_fresh d [] hvals (by simp)]
  simp

theorem dlookup_reverse_some {d : CodeDict}
    (hvals : (d.map Prod.snd).Nodup) {c : Char} {v : List Bool}
    (hm : (c, v) ∈ d) : dlookup (reverse_code_dict d) v = some c := by
  rw [reverse_code_dict_eq hvals]
  induction d with
  | nil => simp at hm
  | cons p d' ih =>
    obtain ⟨a, b⟩ := p
    rw [List.map_cons] at hvals
    have hnd1 := List.nodup_cons.mp hvals
    rcases List.mem_cons.mp hm with h | h
    · cases h
      simp [dlookup]
    · have hbv : b ≠ v := by
        intro hb
        apply hnd1.1
        rw [hb]
        exact List.mem_map.mpr ⟨(c, v), h, rfl⟩
      simp only [List.map_cons, dlookup, if_neg hbv]
      exact ih hnd1.2 h

theorem decode_step_match {rev : List (List Bool × Char)} {out : List Char}
    {acc : List Bool} {bit : Bool} {ch : Char}
    (h : dlookup rev (acc ++ [bit]) = some ch) :
    decode_step rev (out, acc) bit = (out ++ [ch], []) := by
  simp [decode_step, h]

theorem decode_step_nomatch {rev : List (List Bool × Char)} {out : List Char}
    {acc : List Bool} {bit : Bool}
    (h : dlookup rev (acc ++ [bit]) = none) :
    decode_step rev (out, acc) bit = (out, acc ++ [bit]) := by
  simp [decode_step, h]

theorem fold_stay (rev : List (List Bool × Char)) : ∀ (a acc : List Bool)
    (out : List Char),
    (∀ j, j < a.length → dlookup rev (acc ++ a.take (j + 1)) = none) →
    List.foldl (decode_step rev) (out, acc) a = (out, acc ++ a) := by
  intro a
  induction a with
  | nil => intro acc out _; simp
  | cons b a' ih =>
    intro acc out h
    have h0 : dlookup rev (acc ++ [b]) = none := by
      have := h 0 (by simp)
      simpa using this
    rw [List.foldl_cons, decode_step_nomatch h0]
    rw [ih (acc ++ [b]) out ?_]
    · simp
    · intro j hj
      have h1 := h (j + 1) (by simpa using Nat.succ_lt_succ hj)
      rw [List.take_succ_cons, List.append_cons] at h1
      exact h1

theorem decode_code_aux (rev : List (List Bool × Char)) (code : List Bool)
    (ch : Char) (hfull : dlookup rev code = some ch)
    (hpre : ∀ q, q <+: code → q ≠ code → q ≠ [] → dlookup rev q = none) :
    ∀ (q p : List Bool), code = p ++ q → q ≠ [] →
    ∀ (rest : List Bool) (out : List Char),
      List.foldl (decode_step rev) (out, p) (q ++ rest) =
      List.foldl (decode_step rev) (out ++ [ch], []) rest := by
  intro q
  induction q with
  | nil => intro p _ hq; exact absurd rfl hq
  | cons b q' ih =>
    intro p hcode _ rest out
    cases q' with
    | nil =>
      have hfull' : dlookup rev (p ++ [b]) = some ch := by
        rw [← hcode]
        exact hfull
      rw [show ((b :: []) ++ rest : List Bool) = b :: rest from rfl]
      rw [List.foldl_cons, decode_step_match hfull']
    | cons b' q'' =>
      have hno : dlookup rev (p ++ [b]) = none := by
        apply hpre
        · exact ⟨b' :: q'', by rw [hcode]; simp⟩
        · intro heq
          have hlen := congrArg List.length heq
          rw [hcode] at hlen
          simp at hlen
        · simp
      rw [List.cons_append, List.foldl_cons, decode_step_nomatch hno]
      exact ih (p ++ [b]) (by rw [hcode]; simp) (by simp) rest out

theorem decode_one (rev : List (List Bool × Char)) (code : List Bool)
    (ch : Char) (hfull : dlookup rev code = some ch)
    (hpre : ∀ q, q <+: code → q ≠ code → q ≠ [] → dlookup rev q = none)
    (hcne : code ≠ []) (rest : List Bool) (out : List Char) :
    List.foldl (decode_step rev) (out, []) (code ++ rest) =
      List.foldl (decode_step rev) (out ++ [ch], []) rest :=
  decode_code_aux rev code ch hfull hpre code [] (by simp) hcne rest out

theorem decode_join (T : CodeDict) (_hnd : (dkeys T).Nodup)
    (hne : ∀ p ∈ T, p.2 ≠ []) (hpf : PFTable T) :
    ∀ (ws out : List Char), (∀ c ∈ ws, c ∈ dkeys T) →
    List.foldl (decode_step (reverse_code_dict T)) (out, [])
        ((ws.map (codeFn T)).flatten) = (out ++ ws, []) := by
  intro ws
  induction ws with
  | nil => intro out _; simp
  | cons c ws' ih =>
    intro out hmem
    have hlook : dlookup T c = some (codeFn T c) := by
      have := (dlookup_isSome_iff T c).mpr (hmem c (by simp))
      cases h : dlookup T c
      · rw [h] at this; simp at this
      · simp [codeFn, h]
    have hmemT : (c, codeFn T c) ∈ T := mem_of_dlookup_eq_some hlook
    have hfull : dlookup (reverse_code_dict T) (codeFn T c) = some c :=
      dlookup_reverse_some (snd_nodup_of_PFTable hpf) hmemT
    have hpre : ∀ q, q <+: codeFn T c → q ≠ codeFn T c → q ≠ [] →
        dlookup (reverse_code_dict T) q = none := by
      intro q hq hqne _
      apply dlookup_reverse_none
      intro p hp hpq
      by_cases hpc : p = (c, codeFn T c)
      · exact hqne (by rw [← hpq, hpc])
      · have hforall := List.Pairwise.forall
          (R := fun p q : Char × List Bool => ¬ p.2 <+: q.2 ∧ ¬ q.2 <+: p.2)
          (fun x y h => ⟨h.2, h.1⟩) hpf hp hmemT hpc
        exact hforall.1 (hpq ▸ hq)
    have hcne : codeFn T c ≠ [] := hne _ hmemT
    rw [List.map_cons, List.flatten_cons]
    rw [decode_one _ _ _ hfull hpre hcne]
    rw [ih (out ++ [c]) (fun c' hc' => hmem c' (by simp [hc']))]
    simp

theorem huffman_decoding_join (T : CodeDict) (hnd : (dkeys T).Nodup)
    (hne : ∀ p ∈ T, p.2 ≠ []) (hpf : PFTable T) (ws : List Char)
    (hws : ∀ c ∈ ws, c ∈ dkeys T) :
    huffman_decoding ((ws.map (codeFn T)).flatten) T = ws := by
  unfold huffman_decoding
  rw [decode_join T hnd hne hpf ws [] hws]
  simp

/-! ### The decoding loop never fails and splits the input -/

theorem decode_step_run_ok (rev : List (List Bool × Char))
    (st : List Char × List Bool) (bit : Bool) :
    decode_step_run rev st bit = .ok (decode_step rev st bit) := by
  unfold decode_step_run decode_step
  cases h : dlookup rev (st.2 ++ [bit]) <;> simp [h]

theorem foldlM_decode_run (rev : List (List Bool × Char)) :
    ∀ (bits : List Bool) (st : List Char × List Bool),
    List.foldlM (decode_step_run rev) st bits =
      .ok (List.foldl (decode_step rev) st bits) := by
  intro bits
  induction bits with
  | nil => intro st; rfl
  | cons b bits' ih =>
    intro st
    rw [List.foldlM_cons, decode_step_run_ok]
    show (Except.ok (decode_step rev st b) >>= fun s' =>
      List.foldlM (decode_step_run rev) s' bits') = _
    rw [show ∀ (x : List Char × List Bool)
        (g : List Char × List Bool → Except PyErr (List Char × List Bool)),
        (Except.ok x >>= g) = g x from fun _ _ => rfl]
    rw [ih, List.foldl_cons]

theorem fold_split (rev : List (List Bool × Char)) : ∀ (bits : List Bool)
    (out : List Char) (acc : List Bool),
    (∀ q, q ≠ [] → q <+: acc → dlookup rev q = none) →
    ∃ p, acc ++ bits = p ++ (List.foldl (decode_step rev) (out, acc) bits).2 ∧
      List.foldl (decode_step rev) (out, []) p =
        ((List.foldl (decode_step rev) (out, acc) bits).1, []) ∧
      ∀ q, q ≠ [] → q <+: (List.foldl (decode_step rev) (out, acc) bits).2 →
        dlookup rev q = none := by
  intro bits
  induction bits with
  | nil =>
    intro out acc hacc
    exact ⟨[], by simp, by simp, by simpa using hacc⟩
  | cons b bits' ih =>
    intro out acc hacc
    rw [List.foldl_cons]
    cases hmatch : dlookup rev (acc ++ [b]) with
    | some ch =>
      rw [decode_step_match hmatch]
      obtain ⟨p', hsplit, hrun, hcond⟩ := ih (out ++ [ch]) [] (by
        intro q hq hpre
        rw [List.prefix_nil] at hpre
        exact absurd hpre hq)
      refine ⟨acc ++ [b] ++ p', ?_, ?_, hcond⟩
      · rw [List.append_cons acc b bits']
        rw [show acc ++ [b] ++ p' ++
            (List.foldl (decode_step rev) (out ++ [ch], []) bits').2 =
            acc ++ [b] ++ (p' ++
            (List.foldl (decode_step rev) (out ++ [ch], []) bits').2) by
          simp]
        rw [← hsplit]
        simp
      · rw [List.foldl_append, List.foldl_append]
        rw [fold_stay rev acc [] out (by
          intro j hj
          simp only [List.nil_append]
          apply hacc
          · intro hnil
            have hlen : (acc.take (j + 1)).length = j + 1 := by
              rw [List.length_take]
              omega
            rw [hnil] at hlen
            simp at hlen
          · exact List.take_prefix _ _)]
        simp only [List.nil_append]
        have hb : List.foldl (decode_step rev) (out, acc) [b] =
            (out ++ [ch], []) := by
          rw [List.foldl_cons, decode_step_match hmatch]
          rfl
        rw [hb]
        exact hrun
    | none =>
      rw [decode_step_nomatch hmatch]
      obtain ⟨p', hsplit, hrun, hcond⟩ := ih out (acc ++ [b]) (by
        intro q hq hpre
        by_cases hlen : q.length ≤ acc.length
        · exact hacc q hq
            (List.prefix_of_prefix_length_le hpre (List.prefix_append acc [b])
              (by simpa using hlen))
        · have hq2 : q = acc ++ [b] := by
            apply List.IsPrefix.eq_of_length_le hpre
            have := hpre.length_le
            simp at this ⊢
            omega
          rw [hq2]
          exact hmatch)
      refine ⟨p', ?_, hrun, hcond⟩
      rw [List.append_cons acc b bits']
      rw [← hsplit]

/-! ### Claim theorems -/

/-- C1.  For every non-empty string `s`, decoding the encoding of `s` with
the code table built from `s` recovers `s` exactly:
`huffman_decoding(huffman_encoding(s), huffman_code(s)) == s`, evaluated from
a fresh interpreter state. -/
theorem round_trip_ok : ∀ (s : List Char), s ≠ [] → round_trip s = .ok s := by
  intro s hs
  obtain ⟨T, st', h1, h2, hnd, hmem, hne, hpf⟩ := huffman_code_fresh s hs
  have hkeys : ∀ c ∈ s, c ∈ dkeys T := fun c hc => (hmem c).mpr hc
  have henc : huffman_encoding s [] = .ok ((s.map (codeFn T)).flatten, st') := by
    unfold huffman_encoding
    rw [h1]
    simp only
    rw [encode_fold T s [] hkeys]
    simp
  unfold round_trip
  rw [henc]
  simp only
  rw [h2]
  simp only
  rw [huffman_decoding_join T hnd hne hpf s hkeys]

/-- Witness for C1 at the concrete input `"ab"`. -/
theorem round_trip_ok_witness :
    (['a', 'b'] : List Char) ≠ [] ∧ round_trip ['a', 'b'] = .ok ['a', 'b'] :=
  ⟨by decide, round_trip_ok ['a', 'b'] (by decide)⟩

/-- C2.  For every non-empty string `s`, the table returned by
`huffman_code(s)` (fresh state) assigns only non-empty codes, and for any
two distinct symbols neither code is a prefix of the other. -/
theorem huffman_code_prefix_free : ∀ (s : List Char), s ≠ [] →
    ∃ T st', huffman_code s [] = .ok (T, st') ∧
      (∀ c code, dlookup T c = some code → code ≠ []) ∧
      (∀ a b ca cb, a ≠ b → dlookup T a = some ca → dlookup T b = some cb →
        ¬ ca <+: cb) := by
  intro s hs
  obtain ⟨T, st', h1, _h2, _hnd, _hmem, hne, hpf⟩ := huffman_code_fresh s hs
  refine ⟨T, st', h1, ?_, ?_⟩
  · intro c code hc
    exact hne _ (mem_of_dlookup_eq_some hc)
  · intro a b ca cb hab ha hb
    have hma := mem_of_dlookup_eq_some ha
    have hmb := mem_of_dlookup_eq_some hb
    have hpair : ((a, ca) : Char × List Bool) ≠ (b, cb) := by
      intro h
      exact hab (congrArg Prod.fst h)
    have hforall := List.Pairwise.forall
      (R := fun p q : Char × List Bool => ¬ p.2 <+: q.2 ∧ ¬ q.2 <+: p.2)
      (fun x y h => ⟨h.2, h.1⟩) hpf hma hmb hpair
    exact hforall.1

/-- Witness for C2 at the concrete input `"ab"`. -/
theorem huffman_code_prefix_free_witness :
    (['a', 'b'] : List Char) ≠ [] ∧
    ∃ T st', huffman_code ['a', 'b'] [] = .ok (T, st') ∧
      (∀ c code, dlookup T c = some code → code ≠ []) ∧
      (∀ a b ca cb, a ≠ b → dlookup T a = some ca → dlookup T b = some cb →
        ¬ ca <+: cb) :=
  ⟨by decide, huffman_code_prefix_free ['a', 'b'] (by decide)⟩

/-- C4.  `letter_distribution` on the empty string returns the empty table,
and `node_reducer` on the empty frequency table fails: `node_list[0]` on the
empty `SortedList` raises (the spec's `EmptyInput` condition), an explicit
failure handed to the caller rather than a silently returned value. -/
theorem empty_input_behaviour :
    letter_distribution [] = [] ∧ node_reducer [] = .error .emptyInput :=
  ⟨rfl, rfl⟩

/-- C5 counterexample.  `huffman_encoding("")` does not return a result at
all (so in particular not the empty bit string): it fails. -/
theorem huffman_encoding_empty_not_ok :
    (huffman_encoding [] []).toOption = none := rfl

/-- C5 amended.  Encoding the empty input fails with the empty-input error
(`node_reducer` indexes its empty `SortedList`), rather than returning the
empty bit string. -/
theorem huffman_encoding_empty_fails :
    huffman_encoding [] [] = .error .emptyInput := rfl

/-- C6 (failing computation).  `huffman_code` accumulates codes in the
module-level `code_dict`: after `huffman_code("ab")`, the call
`huffman_code("cd")` returns a table that also contains the stale keys
`'a'` and `'b'`, while the same call from a fresh interpreter returns just
`{'c', 'd'}` — the result depends on the earlier call history. -/
theorem huffman_code_state_pollution :
    huffman_code ['a', 'b'] [] =
      .ok ([('a', [false]), ('b', [true])], [('a', [false]), ('b', [true])]) ∧
    huffman_code ['c', 'd'] [('a', [false]), ('b', [true])] =
      .ok ([('a', [false]), ('b', [true]), ('c', [false]), ('d', [true])],
        [('a', [false]), ('b', [true]), ('c', [false]), ('d', [true])]) ∧
    huffman_code ['c', 'd'] [] =
      .ok ([('c', [false]), ('d', [true])], [('c', [false]), ('d', [true])]) := by
  refine ⟨?_, ?_, ?_⟩ <;> rfl

/-- C7.  The single-distinct-symbol input `"aaaa"`: code table `{a: "1"}`,
encoding `"1111"`, decoding back to `"aaaa"`. -/
theorem single_symbol_aaaa :
    huffman_code ['a', 'a', 'a', 'a'] [] = .ok ([('a', [true])], []) ∧
    huffman_encoding ['a', 'a', 'a', 'a'] [] =
      .ok ([true, true, true, true], []) ∧
    huffman_decoding [true, true, true, true] [('a', [true])] =
      ['a', 'a', 'a', 'a'] := by
  refine ⟨?_, ?_, ?_⟩ <;> rfl

/-- C9.  For every non-empty frequency table (a mapping, so keys are
distinct), `node_reducer` terminates normally — no comparison (`TypeError`)
or indexing (`IndexError`) failure is reachable — and returns a tree whose
leaves are exactly the table's symbols, each in exactly one leaf.  Internal
nodes have exactly two children by construction (`node_reducer` only ever
builds two-element lists), so the malformed-tree failure the spec reserves
for `code_assigner` is unreachable. -/
theorem node_reducer_safe : ∀ (freq : List (Char × Nat)), freq ≠ [] →
    (dkeys freq).Nodup →
    ∃ t, node_reducer freq = .ok t ∧ t.leavesOf.Perm (dkeys freq) ∧
      t.leavesOf.Nodup := by
  intro freq hne hnd
  exact node_reducer_ok hnd hne

/-- Witness for C9 at the concrete table `{a: 1, b: 2}`. -/
theorem node_reducer_safe_witness :
    ([('a', 1), ('b', 2)] : List (Char × Nat)) ≠ [] ∧
    ∃ t, node_reducer [('a', 1), ('b', 2)] = .ok t ∧
      t.leavesOf.Perm (dkeys [('a', 1), ('b', 2)]) ∧ t.leavesOf.Nodup :=
  ⟨by decide, node_reducer_safe [('a', 1), ('b', 2)] (by decide) (by decide)⟩

/-- C3 counterexample.  For the table `{a: "0"}` and the bit string `"1"` —
which ends with the non-empty accumulator `"1"` that never matches any
code — `huffman_decoding` returns the result `""` instead of failing. -/
theorem decoding_returns_on_truncated :
    huffman_decoding_run [true] [('a', [false])] = .ok [] ∧
    huffman_decoding [true] [('a', [false])] = [] ∧
    (List.foldl (decode_step (reverse_code_dict [('a', [false])]))
      ([], []) [true]).2 = [true] ∧
    dlookup (reverse_code_dict [('a', [false])]) [true] = none := by
  refine ⟨?_, ?_, ?_, ?_⟩ <;> rfl

/-- C3 amended.  `huffman_decoding` never fails: for every bit string and
every code table it returns a result (the bits decoded so far), silently
discarding a trailing non-empty accumulator that matched no code. -/
theorem huffman_decoding_never_fails : ∀ (bits : List Bool) (d : CodeDict),
    ∃ out, huffman_decoding_run bits d = .ok out ∧
      huffman_decoding bits d = out := by
  intro bits d
  refine ⟨huffman_decoding bits d, ?_, rfl⟩
  unfold huffman_decoding_run
  rw [foldlM_decode_run]
  rfl

/-- C10.  On every bit string and every code table, `huffman_decoding`
terminates normally without raising; the input splits as `p ++ r` where the
output is exactly the greedy decode of the prefix `p` (consumed with an
empty final accumulator) and `r` is the trailing residue whose successive
accumulations never match any code and which is silently discarded. -/
theorem huffman_decoding_greedy : ∀ (bits : List Bool) (d : CodeDict),
    ∃ out p r, huffman_decoding_run bits d = .ok out ∧
      huffman_decoding bits d = out ∧
      bits = p ++ r ∧
      List.foldl (decode_step (reverse_code_dict d)) ([], []) p = (out, []) ∧
      huffman_decoding p d = out ∧
      ∀ q, q ≠ [] → q <+: r → dlookup (reverse_code_dict d) q = none := by
  intro bits d
  obtain ⟨p, hsplit, hrun, hcond⟩ :=
    fold_split (reverse_code_dict d) bits [] [] (by
      intro q hq hpre
      rw [List.prefix_nil] at hpre
      exact absurd hpre hq)
  refine ⟨huffman_decoding bits d, p,
    (List.foldl (decode_step (reverse_code_dict d)) ([], []) bits).2,
    ?_, rfl, by simpa using hsplit, ?_, ?_, hcond⟩
  · unfold huffman_decoding_run
    rw [foldlM_decode_run]
    rfl
  · exact hrun
  · unfold huffman_decoding
    rw [hrun]

/-! ### Key order, ordered insertion and the reduction cost -/

theorem keyLt_asymm {a b : Nat × Char} (h1 : keyLt a b) (h2 : keyLt b a) :
    False := by
  rcases h1 with h1 | ⟨h1e, h1v⟩ <;> rcases h2 with h2 | ⟨h2e, h2v⟩
  · omega
  · omega
  · omega
  · have hv1 : a.2.val.toNat < b.2.val.toNat := h1v
    have hv2 : b.2.val.toNat < a.2.val.toNat := h2v
    omega

theorem keyLE_of_keyLt {a b : Nat × Char} (h : keyLt a b) : keyLE a b :=
  fun h' => keyLt_asymm h h'

theorem keyLE_of_not_keyLt {a b : Nat × Char} (h : ¬ keyLt a b) : keyLE b a := h

theorem keyLt_trans {a b c : Nat × Char} (h1 : keyLt a b) (h2 : keyLt b c) :
    keyLt a c := by
  rcases h1 with h1 | ⟨h1e, h1v⟩ <;> rcases h2 with h2 | ⟨h2e, h2v⟩
  · exact Or.inl (by omega)
  · exact Or.inl (by omega)
  · exact Or.inl (by omega)
  · refine Or.inr ⟨by omega, ?_⟩
    have hv1 : a.2.val.toNat < b.2.val.toNat := h1v
    have hv2 : b.2.val.toNat < c.2.val.toNat := h2v
    exact (show a.2.val.toNat < c.2.val.toNat by omega)

theorem keyLt_connex (a b : Nat × Char) : keyLt a b ∨ a = b ∨ keyLt b a := by
  rcases Nat.lt_trichotomy a.1 b.1 with h | h | h
  · exact Or.inl (Or.inl h)
  · rcases Nat.lt_trichotomy a.2.val.toNat b.2.val.toNat with hv | hv | hv
    · exact Or.inl (Or.inr ⟨h, hv⟩)
    · refine Or.inr (Or.inl ?_)
      have : a.2 = b.2 := Char.ext (UInt32.ext hv)
      exact Prod.ext h this
    · exact Or.inr (Or.inr (Or.inr ⟨h.symm, hv⟩))
  · exact Or.inr (Or.inr (Or.inl h))

theorem keyLE_trans {a b c : Nat × Char} (h1 : keyLE a b) (h2 : keyLE b c) :
    keyLE a c := by
  intro hca
  rcases keyLt_connex c b with h | h | h
  · exact h2 h
  · exact h1 (h ▸ hca)
  · exact h1 (keyLt_trans h hca)

theorem kInsert_perm (e : Nat × Char) : ∀ (l : List (Nat × Char)),
    (kInsert e l).Perm (e :: l) := by
  intro l
  induction l with
  | nil => exact List.Perm.refl _
  | cons x xs ih =>
    rw [kInsert]
    by_cases h : keyLt e x
    · rw [if_pos h]
    · rw [if_neg h]
      exact (ih.cons x).trans (List.Perm.swap e x xs)

theorem kInsert_length (e : Nat × Char) : ∀ (l : List (Nat × Char)),
    (kInsert e l).length = l.length + 1 := fun l =>
  (kInsert_perm e l).length_eq

theorem kInsert_sorted (e : Nat × Char) : ∀ (l : List (Nat × Char)),
    l.Sorted keyLE → (kInsert e l).Sorted keyLE := by
  intro l
  induction l with
  | nil => intro _; simp [kInsert]
  | cons x xs ih =>
    intro hs
    rw [List.sorted_cons] at hs
    rw [kInsert]
    by_cases h : keyLt e x
    · rw [if_pos h]
      rw [List.sorted_cons]
      refine ⟨?_, List.sorted_cons.mpr hs⟩
      intro b hb
      rcases List.mem_cons.mp hb with hb | hb
      · exact hb ▸ keyLE_of_keyLt h
      · exact keyLE_trans (keyLE_of_keyLt h) (hs.1 b hb)
    · rw [if_neg h]
      rw [List.sorted_cons]
      refine ⟨?_, ih hs.2⟩
      intro b hb
      have hb' : b ∈ e :: xs := (kInsert_perm e xs).subset hb
      rcases List.mem_cons.mp hb' with hb' | hb'
      · exact hb' ▸ keyLE_of_not_keyLt h
      · exact hs.1 b hb'

theorem ksort_perm_aux : ∀ (l : List (Nat × Char)) (acc : List (Nat × Char)),
    (l.foldl (fun acc e => kInsert e acc) acc).Perm (acc ++ l) := by
  intro l
  induction l with
  | nil => intro acc; simp
  | cons e l' ih =>
    intro acc
    rw [List.foldl_cons]
    refine (ih (kInsert e acc)).trans ?_
    refine (((kInsert_perm e acc)).append_right l').trans ?_
    exact (List.perm_middle).symm

theorem ksort_perm (l : List (Nat × Char)) : (ksort l).Perm l := by
  have h := ksort_perm_aux l []
  simpa [ksort] using h

theorem ksort_sorted_aux : ∀ (l : List (Nat × Char))
    (acc : List (Nat × Char)), acc.Sorted keyLE →
    (l.foldl (fun acc e => kInsert e acc) acc).Sorted keyLE := by
  intro l
  induction l with
  | nil => intro acc h; exact h
  | cons e l' ih =>
    intro acc h
    rw [List.foldl_cons]
    exact ih _ (kInsert_sorted e acc h)

theorem ksort_sorted (l : List (Nat × Char)) : (ksort l).Sorted keyLE :=
  ksort_sorted_aux l [] (by simp)

theorem redCost_nil : redCost [] = 0 := by
  rw [redCost]

theorem redCost_single (a : Nat × Char) : redCost [a] = 0 := by
  rw [redCost]

theorem redCost_cons2 (a b : Nat × Char) (rest : List (Nat × Char)) :
    redCost (a :: b :: rest) =
      a.1 + b.1 + redCost (kInsert (a.1 + b.1, a.2) rest) := by
  rw [redCost]

/-! ### Cost of the reduction loop -/

theorem EGood_merge_char_ne {a b : Entry} {rest : List Entry}
    (hg : EGood (a :: b :: rest)) :
    ∀ x ∈ rest, (a.1 + b.1, a.2.1, HTree.node a.2.2 b.2.2).2.1 ≠ x.2.1 := by
  have hnodup := hg.1
  rw [allLeaves_cons, allLeaves_cons] at hnodup
  have hsplit := List.nodup_append.mp hnodup
  intro x hx
  have hax : a.2.1 ∈ a.2.2.leavesOf := hg.2 a (by simp)
  have hxx : x.2.1 ∈ x.2.2.leavesOf := hg.2 x (by simp [hx])
  have hxall : x.2.1 ∈ allLeaves rest := by
    simp only [allLeaves, List.mem_flatMap]
    exact ⟨x, hx, hxx⟩
  intro heq
  have hmem : a.2.1 ∈ b.2.2.leavesOf ++ allLeaves rest := by
    rw [heq]
    exact List.mem_append_right _ hxall
  exact (List.disjoint_left.mp hsplit.2.2) hax hmem

theorem EGood_merge {a b : Entry} {rest L1 : List Entry}
    (hg : EGood (a :: b :: rest))
    (hPerm : L1.Perm ((a.1 + b.1, a.2.1, HTree.node a.2.2 b.2.2) :: rest)) :
    EGood L1 := by
  apply EGood_perm hPerm.symm
  constructor
  · have heq : allLeaves ((a.1 + b.1, a.2.1, HTree.node a.2.2 b.2.2) :: rest) =
        allLeaves (a :: b :: rest) := by
      simp [allLeaves_cons, HTree.leavesOf]
    rw [heq]
    exact hg.1
  · intro e he
    rcases List.mem_cons.mp he with he | he
    · subst he
      simp [HTree.leavesOf]
      left
      exact hg.2 a (by simp)
    · exact hg.2 e (by simp [he])

theorem WInv_perm {f : Char → Nat} {L L' : List Entry} (h : L.Perm L')
    (hw : WInv f L) : WInv f L' :=
  fun e he => hw e (h.symm.subset he)

theorem sumCost_perm {f : Char → Nat} {L L' : List Entry} (h : L.Perm L') :
    sumCost f L = sumCost f L' :=
  (h.map (entryCost f)).sum_eq

theorem weightF_node (f : Char → Nat) (l r : HTree) :
    HTree.weightF f (.node l r) = HTree.weightF f l + HTree.weightF f r := by
  simp [HTree.weightF, HTree.leavesOf]

theorem nr_loop_cost (f : Char → Nat) : ∀ (fuel : Nat) (L L' : List Entry),
    EGood L → WInv f L → L.length ≤ fuel → nr_loop fuel L = .ok L' →
    sumCost f L' = sumCost f L + redCost (L.map keyOf) ∧ WInv f L' := by
  intro fuel
  induction fuel with
  | zero =>
    intro L L' _ hw hlen hrun
    have hL : L = [] := List.length_eq_zero.mp (Nat.le_zero.mp hlen)
    subst hL
    simp [nr_loop] at hrun
    subst hrun
    simp [redCost_nil]
    exact hw
  | succ fuel ih =>
    intro L L' hg hw hlen hrun
    match L, hrun with
    | [], hrun =>
      simp [nr_loop] at hrun
      subst hrun
      simp [redCost_nil]
      exact hw
    | [e], hrun =>
      simp [nr_loop] at hrun
      subst hrun
      simp [redCost_single]
      exact hw
    | a :: b :: rest, hrun =>
      have hchars := EGood_merge_char_ne hg
      obtain ⟨L1, hAdd, hPerm⟩ := slAdd_ok_perm rest _ hchars
      rw [nr_loop, hAdd] at hrun
      have hg1 : EGood L1 := EGood_merge hg hPerm
      have hW1 : WInv f L1 := by
        apply WInv_perm hPerm.symm
        intro e he
        rcases List.mem_cons.mp he with he | he
        · subst he
          simp only [weightF_node]
          rw [hw a (by simp), hw b (by simp)]
        · exact hw e (by simp [he])
      have hlen1 : L1.length ≤ fuel := by
        have h1 : L1.length = rest.length + 1 := hPerm.length_eq
        simp at hlen
        omega
      obtain ⟨hSum, hW'⟩ := ih L1 L' hg1 hW1 hlen1 hrun
      refine ⟨?_, hW'⟩
      rw [hSum, sumCost_perm hPerm]
      have hkeys : L1.map keyOf =
          kInsert (a.1 + b.1, a.2.1) (rest.map keyOf) :=
        slAdd_map_keyOf rest _ L1 hchars hAdd
      have hred : redCost ((a :: b :: rest).map keyOf) =
          a.1 + b.1 + redCost (kInsert (a.1 + b.1, a.2.1) (rest.map keyOf)) := by
        rw [List.map_cons, List.map_cons, redCost_cons2]
        rfl
      rw [hkeys, hred]
      have hsc : sumCost f ((a.1 + b.1, a.2.1,
          HTree.node a.2.2 b.2.2) :: rest) =
          entryCost f a + entryCost f b + a.1 + b.1 + sumCost f rest := by
        simp only [sumCost, List.map_cons, List.sum_cons]
        unfold entryCost
        simp only [HTree.costF]
        rw [← hw a (by simp), ← hw b (by simp)]
      have hsc2 : sumCost f (a :: b :: rest) =
          entryCost f a + entryCost f b + sumCost f rest := by
        simp only [sumCost, List.map_cons, List.sum_cons]
        omega
      rw [hsc, hsc2]
      omega

/-! ### Table cost equals tree cost -/

theorem weightF_paths_sum (f : Char → Nat) (t : HTree) :
    ((t.pathsOf).map fun p => f p.1).sum = HTree.weightF f t := by
  have h : (t.pathsOf.map fun p => f p.1) = (t.pathsOf.map Prod.fst).map f := by
    rw [List.map_map]
    rfl
  rw [h, pathsOf_map_fst]
  rfl

theorem tableCost_pathsOf (f : Char → Nat) : ∀ (t : HTree),
    tableCost f t.pathsOf = HTree.costF f t := by
  intro t
  induction t with
  | leaf c => simp [tableCost, HTree.pathsOf, HTree.costF]
  | node l r ihl ihr =>
    unfold tableCost at ihl ihr ⊢
    simp only [HTree.pathsOf, List.map_append, List.sum_append, List.map_map]
    have hside : ∀ (bit : Bool) (u : HTree),
        ((u.pathsOf).map ((fun p : Char × List Bool => f p.1 * p.2.length) ∘
          fun p => (p.1, bit :: p.2))).sum =
        ((u.pathsOf).map fun p => f p.1 * p.2.length).sum +
          HTree.weightF f u := by
      intro bit u
      have hcongr : ((u.pathsOf).map ((fun p : Char × List Bool =>
          f p.1 * p.2.length) ∘ fun p => (p.1, bit :: p.2))) =
          (u.pathsOf).map fun p => f p.1 * p.2.length + f p.1 := by
        apply List.map_congr_left
        intro p _
        simp [Function.comp, Nat.mul_add, Nat.mul_one, List.length_cons]
      rw [hcongr, List.sum_map_add, weightF_paths_sum]
    rw [hside false l, hside true r, ihl, ihr]
    simp only [HTree.costF]
    omega

/-! ### Competitor code transformations -/

theorem swapCh_self (a c : Char) : swapCh a a c = c := by
  by_cases h : c = a
  · simp [swapCh, h]
  · simp [swapCh, h]

theorem swapCh_left (a b : Char) : swapCh a b a = b := by simp [swapCh]

theorem swapCh_right (a b : Char) : swapCh a b b = a := by
  by_cases h : b = a
  · subst h; simp [swapCh]
  · simp [swapCh, h]

theorem swapCh_other {a b c : Char} (h1 : c ≠ a) (h2 : c ≠ b) :
    swapCh a b c = c := by
  simp [swapCh, h1, h2]

theorem swapCh_mem {S : List Char} {a b : Char} (ha : a ∈ S) (hb : b ∈ S) :
    ∀ c ∈ S, swapCh a b c ∈ S := by
  intro c hc
  unfold swapCh
  split
  · exact hb
  · split
    · exact ha
    · exact hc

theorem swapCh_inj (a b : Char) {c d : Char}
    (h : swapCh a b c = swapCh a b d) : c = d := by
  unfold swapCh at h
  split_ifs at h <;> simp_all

theorem swapCd_left (cd : Char → List Bool) (a b : Char) :
    swapCd cd a b a = cd b := by
  simp [swapCd, swapCh_left]

theorem swapCd_right (cd : Char → List Bool) (a b : Char) :
    swapCd cd a b b = cd a := by
  simp [swapCd, swapCh_right]

theorem swapCd_other (cd : Char → List Bool) {a b c : Char} (h1 : c ≠ a)
    (h2 : c ≠ b) : swapCd cd a b c = cd c := by
  simp [swapCd, swapCh_other h1 h2]

theorem NEOn_swap {S : List Char} {cd : Char → List Bool} {a b : Char}
    (ha : a ∈ S) (hb : b ∈ S) (hne : NEOn S cd) :
    NEOn S (swapCd cd a b) :=
  fun c hc => hne _ (swapCh_mem ha hb c hc)

theorem PFOn_swap {S : List Char} {cd : Char → List Bool} {a b : Char}
    (ha : a ∈ S) (hb : b ∈ S) (hpf : PFOn S cd) :
    PFOn S (swapCd cd a b) := by
  intro x hx y hy hxy
  exact hpf _ (swapCh_mem ha hb x hx) _ (swapCh_mem ha hb y hy)
    (fun h => hxy (swapCh_inj a b h))

theorem cd_inj_of_PFOn {S : List Char} {cd : Char → List Bool}
    (hpf : PFOn S cd) {a b : Char} (ha : a ∈ S) (hb : b ∈ S) (hab : a ≠ b) :
    cd a ≠ cd b :=
  fun h => hpf a ha b hb hab (h ▸ List.prefix_refl _)

theorem klCost_perm {K K' : List (Nat × Char)} (cd : Char → List Bool)
    (h : K.Perm K') : klCost K cd = klCost K' cd :=
  (h.map _).sum_eq

theorem klCost_cons (k : Nat × Char) (K : List (Nat × Char))
    (cd : Char → List Bool) :
    klCost (k :: K) cd = k.1 * (cd k.2).length + klCost K cd := by
  simp [klCost]

theorem klCost_congr {K : List (Nat × Char)} {cd ce : Char → List Bool}
    (h : ∀ k ∈ K, cd k.2 = ce k.2) : klCost K cd = klCost K ce := by
  unfold klCost
  apply congrArg
  apply List.map_congr_left
  intro k hk
  rw [h k hk]

theorem snd_inj_of_nodup {K : List (Nat × Char)}
    (h : (K.map Prod.snd).Nodup) {k1 k2 : Nat × Char} (h1 : k1 ∈ K)
    (h2 : k2 ∈ K) (hs : k1.2 = k2.2) : k1 = k2 := by
  by_cases hk : k1 = k2
  · exact hk
  · exfalso
    have hpw : K.Pairwise fun a b => a.2 ≠ b.2 := by
      rw [List.Nodup, List.pairwise_map] at h
      exact h
    exact List.Pairwise.forall (fun x y hxy => hxy.symm) hpw h1 h2 hk hs

theorem two_mem_perm {K : List (Nat × Char)} (hnd : (K.map Prod.snd).Nodup)
    {k1 k2 : Nat × Char} (h1 : k1 ∈ K) (h2 : k2 ∈ K) (hne : k1 ≠ k2) :
    ∃ T, K.Perm (k1 :: k2 :: T) ∧ ∀ k ∈ T, k.2 ≠ k1.2 ∧ k.2 ≠ k2.2 := by
  have hKnd : K.Nodup := List.Nodup.of_map _ hnd
  obtain ⟨pre, post, rfl⟩ := List.append_of_mem h1
  have hperm1 : (pre ++ k1 :: post).Perm (k1 :: (pre ++ post)) :=
    List.perm_middle
  have hnd2 : (k1 :: (pre ++ post)).Nodup := hperm1.nodup hKnd
  have hk1nm : k1 ∉ pre ++ post := (List.nodup_cons.mp hnd2).1
  have hndpp : (pre ++ post).Nodup := (List.nodup_cons.mp hnd2).2
  have h2' : k2 ∈ pre ++ post := by
    have hmem : k2 ∈ k1 :: (pre ++ post) := hperm1.subset h2
    rcases List.mem_cons.mp hmem with h | h
    · exact absurd h (fun hh => hne hh.symm)
    · exact h
  obtain ⟨pre2, post2, hpp⟩ := List.append_of_mem h2'
  refine ⟨pre2 ++ post2, ?_, ?_⟩
  · refine hperm1.trans ?_
    refine List.Perm.cons k1 ?_
    rw [hpp]
    exact List.perm_middle
  · intro k hk
    have hkpp : k ∈ pre ++ post := by
      rw [hpp]
      simp at hk ⊢
      tauto
    have hkK : k ∈ pre ++ k1 :: post := by
      simp at hkpp ⊢
      tauto
    have hne1 : k ≠ k1 := fun h => hk1nm (h ▸ hkpp)
    have hk2nm : k2 ∉ pre2 ++ post2 := by
      have hnd3 : (pre2 ++ k2 :: post2).Nodup := hpp ▸ hndpp
      have hnd4 : (k2 :: (pre2 ++ post2)).Nodup :=
        (List.perm_middle).nodup hnd3
      exact (List.nodup_cons.mp hnd4).1
    have hne2 : k ≠ k2 := fun h => hk2nm (h ▸ hk)
    constructor
    · intro hs
      exact hne1 (snd_inj_of_nodup hnd hkK h1 hs)
    · intro hs
      exact hne2 (snd_inj_of_nodup hnd hkK h2 hs)

theorem klCost_swap_le {K : List (Nat × Char)} (hnd : (K.map Prod.snd).Nodup)
    {cd : Char → List Bool} {wa wb : Nat} {a b : Char}
    (ha : (wa, a) ∈ K) (hb : (wb, b) ∈ K) (hw : wa ≤ wb)
    (hlen : (cd a).length ≤ (cd b).length) :
    klCost K (swapCd cd a b) ≤ klCost K cd := by
  by_cases hab : a = b
  · subst hab
    have heq : klCost K (swapCd cd a a) = klCost K cd :=
      klCost_congr (fun k _ => by
        show cd (swapCh a a k.2) = cd k.2
        rw [swapCh_self])
    rw [heq]
  · have hne : ((wa, a) : Nat × Char) ≠ (wb, b) := by
      intro h
      exact hab (congrArg Prod.snd h)
    obtain ⟨T, hperm, hT⟩ := two_mem_perm hnd ha hb hne
    rw [klCost_perm (swapCd cd a b) hperm, klCost_perm cd hperm]
    rw [klCost_cons, klCost_cons, klCost_cons, klCost_cons]
    have hswl : swapCd cd a b ((wa, a) : Nat × Char).2 = cd b := swapCd_left cd a b
    have hswr : swapCd cd a b ((wb, b) : Nat × Char).2 = cd a := swapCd_right cd a b
    rw [hswl, hswr]
    have hTcost : klCost T (swapCd cd a b) = klCost T cd :=
      klCost_congr (fun k hk => swapCd_other cd (hT k hk).1 (hT k hk).2)
    rw [hTcost]
    have h1 : wa * (cd b).length =
        wa * (cd a).length + wa * ((cd b).length - (cd a).length) := by
      rw [← Nat.mul_add, Nat.add_sub_cancel' hlen]
    have h2 : wb * (cd a).length + wb * ((cd b).length - (cd a).length) =
        wb * (cd b).length := by
      rw [← Nat.mul_add, Nat.add_sub_cancel' hlen]
    have h3 : wa * ((cd b).length - (cd a).length) ≤
        wb * ((cd b).length - (cd a).length) := Nat.mul_le_mul_right _ hw
    have e1 : ((wa, a) : Nat × Char).1 = wa := rfl
    have e2 : ((wa, a) : Nat × Char).2 = a := rfl
    have e3 : ((wb, b) : Nat × Char).1 = wb := rfl
    have e4 : ((wb, b) : Nat × Char).2 = b := rfl
    simp only [e1, e2, e3, e4]
    omega

theorem exists_max_len : ∀ (S : List Char), S ≠ [] → ∀ (g : Char → Nat),
    ∃ u ∈ S, ∀ c ∈ S, g c ≤ g u := by
  intro S
  induction S with
  | nil => intro h; exact absurd rfl h
  | cons x xs ih =>
    intro _ g
    cases xs with
    | nil =>
      refine ⟨x, by simp, ?_⟩
      intro c hc
      simp at hc
      subst hc
      exact Nat.le_refl _
    | cons y ys =>
      obtain ⟨u, hu, hmax⟩ := ih (by simp) g
      by_cases h : g x ≤ g u
      · refine ⟨u, by simp [hu], ?_⟩
        intro c hc
        rcases List.mem_cons.mp hc with rfl | hc
        · exact h
        · exact hmax c hc
      · refine ⟨x, by simp, ?_⟩
        intro c hc
        rcases List.mem_cons.mp hc with rfl | hc
        · exact Nat.le_refl _
        · exact Nat.le_trans (hmax c hc) (Nat.le_of_not_le h)

theorem three_symbols_len_ge_two {S : List Char} (hnd : S.Nodup)
    (h3 : 3 ≤ S.length) {cd : Char → List Bool} (hne : NEOn S cd)
    (hpf : PFOn S cd) {u : Char} (hu : u ∈ S)
    (hmax : ∀ c ∈ S, (cd c).length ≤ (cd u).length) :
    2 ≤ (cd u).length := by
  by_contra hcon
  push_neg at hcon
  have hall : ∀ c ∈ S, ∃ bb, cd c = [bb] := by
    intro c hc
    have l1 : (cd c).length ≤ 1 := by
      have := hmax c hc
      omega
    have l2 : cd c ≠ [] := hne c hc
    have l3 : (cd c).length = 1 := by
      have := List.length_pos.mpr l2
      omega
    exact List.length_eq_one.mp l3
  cases S with
  | nil => simp at h3
  | cons s1 S1 =>
    cases S1 with
    | nil => simp at h3
    | cons s2 S2 =>
      cases S2 with
      | nil => simp at h3
      | cons s3 S3 =>
        have h12 : s1 ≠ s2 := by
          intro h
          rw [List.nodup_cons] at hnd
          exact hnd.1 (h ▸ (by simp))
        have h13 : s1 ≠ s3 := by
          intro h
          rw [List.nodup_cons] at hnd
          exact hnd.1 (h ▸ (by simp))
        have h23 : s2 ≠ s3 := by
          intro h
          rw [List.nodup_cons, List.nodup_cons] at hnd
          exact hnd.2.1 (h ▸ (by simp))
        obtain ⟨b1, hb1⟩ := hall s1 (by simp)
        obtain ⟨b2, hb2⟩ := hall s2 (by simp)
        obtain ⟨b3, hb3⟩ := hall s3 (by simp)
        have hc12 := cd_inj_of_PFOn hpf (by simp) (by simp) h12
        have hc13 := cd_inj_of_PFOn hpf (by simp) (by simp) h13
        have hc23 := cd_inj_of_PFOn hpf
          (show s2 ∈ s1 :: s2 :: s3 :: S3 by simp)
          (show s3 ∈ s1 :: s2 :: s3 :: S3 by simp) h23
        rw [hb1, hb2] at hc12
        rw [hb1, hb3] at hc13
        rw [hb2, hb3] at hc23
        cases b1 <;> cases b2 <;> cases b3 <;> simp_all

theorem prefix_snoc_cases {q p : List Bool} {b : Bool} (h : q <+: p ++ [b]) :
    q <+: p ∨ q = p ++ [b] := by
  by_cases hlen : q.length ≤ p.length
  · exact Or.inl (List.prefix_of_prefix_length_le h (List.prefix_append p [b])
      hlen)
  · refine Or.inr (List.IsPrefix.eq_of_length_le h ?_)
    have := h.length_le
    simp at this ⊢
    omega

theorem dropLast_isPre {l : List Bool} (h : l ≠ []) : l.dropLast <+: l :=
  ⟨[l.getLast h], List.dropLast_append_getLast h⟩

theorem eq_snoc_of_prefix_succ {q code : List Bool} (h : q <+: code)
    (hlen : code.length = q.length + 1) : ∃ bb, code = q ++ [bb] := by
  obtain ⟨t, rfl⟩ := h
  have ht : t.length = 1 := by
    simp at hlen
    omega
  obtain ⟨bb, rfl⟩ := List.length_eq_one.mp ht
  exact ⟨bb, rfl⟩

/-! ### Optimality of the Huffman reduction over all prefix-free codes -/

theorem fst_le_of_keyLE {a b : Nat × Char} (h : keyLE a b) : a.1 ≤ b.1 := by
  unfold keyLE keyLt at h
  push_neg at h
  omega

/-- Core optimality induction: on a sorted key list with distinct symbols
and positive weights, the Huffman merge cost is at most the cost of every
prefix-free assignment of non-empty codes. -/
theorem wOptK : ∀ (n : Nat) (K : List (Nat × Char)), K.length ≤ n →
    K.Sorted keyLE → (K.map Prod.snd).Nodup → (∀ k ∈ K, 0 < k.1) →
    ∀ (cd : Char → List Bool), NEOn (K.map Prod.snd) cd →
    PFOn (K.map Prod.snd) cd → redCost K ≤ klCost K cd := by
  intro n
  induction n with
  | zero =>
    intro K hlen _ _ _ cd _ _
    have hK : K = [] := List.length_eq_zero.mp (Nat.le_zero.mp hlen)
    subst hK
    rw [redCost_nil]
    exact Nat.zero_le _
  | succ n ih =>
    intro K hlen hsort hnd hpos cd hne hpf
    match K, hlen, hsort, hnd, hpos, hne, hpf with
    | [], _, _, _, _, _, _ =>
      rw [redCost_nil]
      exact Nat.zero_le _
    | [k], _, _, _, _, _, _ =>
      rw [redCost_single]
      exact Nat.zero_le _
    | (w1, x) :: (w2, y) :: rest, hlen, hsort, hnd, hpos, hne, hpf =>
      have hndS : (x :: y :: rest.map Prod.snd).Nodup := hnd
      have hxy : x ≠ y := by
        rw [List.nodup_cons] at hndS
        exact fun h => hndS.1 (h ▸ (by simp))
      have hxnr : x ∉ rest.map Prod.snd := by
        rw [List.nodup_cons] at hndS
        exact fun h => hndS.1 (by simp [h])
      have hynr : y ∉ rest.map Prod.snd := by
        rw [List.nodup_cons, List.nodup_cons] at hndS
        exact hndS.2.1
      have hxS : x ∈ ((w1, x) :: (w2, y) :: rest).map Prod.snd := by simp
      have hyS : y ∈ ((w1, x) :: (w2, y) :: rest).map Prod.snd := by simp
      rw [List.sorted_cons] at hsort
      have hs1 := hsort.1
      rw [List.sorted_cons] at hsort
      have hs2 := hsort.2.1
      have hs3 := hsort.2.2
      have hw12 : w1 ≤ w2 := fst_le_of_keyLE (hs1 (w2, y) (by simp))
      have hwx_min : ∀ k ∈ (w1, x) :: (w2, y) :: rest, w1 ≤ k.1 := by
        intro k hk
        rcases List.mem_cons.mp hk with hk | hk
        · rw [hk]
        · exact fst_le_of_keyLE (hs1 k hk)
      have hwy_min : ∀ k ∈ (w2, y) :: rest, w2 ≤ k.1 := by
        intro k hk
        rcases List.mem_cons.mp hk with hk | hk
        · rw [hk]
        · exact fst_le_of_keyLE (hs2 k hk)
      have eproj : (((w1, x) : Nat × Char).1 + ((w2, y) : Nat × Char).1,
          ((w1, x) : Nat × Char).2) = ((w1 + w2, x) : Nat × Char) := rfl
      have hred : redCost ((w1, x) :: (w2, y) :: rest) =
          w1 + w2 + redCost (kInsert (w1 + w2, x) rest) := by
        rw [redCost_cons2, eproj]
      cases rest with
      | nil =>
        have hlx : 1 ≤ (cd x).length :=
          List.length_pos.mpr (hne x hxS)
        have hly : 1 ≤ (cd y).length :=
          List.length_pos.mpr (hne y hyS)
        have h1 : w1 * 1 ≤ w1 * (cd x).length := Nat.mul_le_mul_left w1 hlx
        have h2 : w2 * 1 ≤ w2 * (cd y).length := Nat.mul_le_mul_left w2 hly
        rw [hred]
        rw [show kInsert ((w1 + w2, x) : Nat × Char) [] = [(w1 + w2, x)]
          from rfl]
        rw [redCost_single]
        rw [klCost_cons, klCost_cons]
        rw [show klCost [] cd = 0 from rfl]
        have ex : ((w1, x) : Nat × Char).2 = x := rfl
        have ey : ((w2, y) : Nat × Char).2 = y := rfl
        have ex1 : ((w1, x) : Nat × Char).1 = w1 := rfl
        have ey1 : ((w2, y) : Nat × Char).1 = w2 := rfl
        rw [ex, ey, ex1, ey1]
        omega
      | cons r0 rest' =>
        -- at least three symbols
        have hS3 : 3 ≤ (((w1, x) :: (w2, y) :: r0 :: rest').map
            Prod.snd).length := by simp
        -- the optimal competitor
        have hnonempty : Set.Nonempty {m | ∃ ce,
            NEOn (((w1, x) :: (w2, y) :: r0 :: rest').map Prod.snd) ce ∧
            PFOn (((w1, x) :: (w2, y) :: r0 :: rest').map Prod.snd) ce ∧
            klCost ((w1, x) :: (w2, y) :: r0 :: rest') ce = m} :=
          ⟨_, cd, hne, hpf, rfl⟩
        obtain ⟨cstar, hneS, hpfS, hcstar⟩ := Nat.sInf_mem hnonempty
        have hminimal : ∀ ce,
            NEOn (((w1, x) :: (w2, y) :: r0 :: rest').map Prod.snd) ce →
            PFOn (((w1, x) :: (w2, y) :: r0 :: rest').map Prod.snd) ce →
            sInf {m | ∃ ce,
              NEOn (((w1, x) :: (w2, y) :: r0 :: rest').map Prod.snd) ce ∧
              PFOn (((w1, x) :: (w2, y) :: r0 :: rest').map Prod.snd) ce ∧
              klCost ((w1, x) :: (w2, y) :: r0 :: rest') ce = m} ≤
              klCost ((w1, x) :: (w2, y) :: r0 :: rest') ce :=
          fun ce h1 h2 => Nat.sInf_le ⟨ce, h1, h2, rfl⟩
        -- a longest codeword
        obtain ⟨u, huS, humax⟩ := exists_max_len _
          (by simp : ((w1, x) :: (w2, y) :: r0 :: rest').map Prod.snd ≠ [])
          (fun c => (cstar c).length)
        have hL2 : 2 ≤ (cstar u).length :=
          three_symbols_len_ge_two hnd hS3 hneS hpfS huS humax
        have hcune : cstar u ≠ [] := hneS u huS
        have hcu_eq : cstar u = (cstar u).dropLast ++ [(cstar u).getLast hcune] :=
          (List.dropLast_append_getLast hcune).symm
        have hplen : (cstar u).dropLast.length + 1 = (cstar u).length := by
          conv_rhs => rw [hcu_eq]
          simp
        have hpne : (cstar u).dropLast ≠ [] := by
          intro h
          rw [h] at hplen
          simp at hplen
          omega
        have hsiblen : ((cstar u).dropLast ++
            [!(cstar u).getLast hcune]).length = (cstar u).dropLast.length + 1 := by
          simp
        have hsib_ne_cu : (cstar u).dropLast ++ [!(cstar u).getLast hcune] ≠
            cstar u := by
          intro h
          have h2 := h.trans hcu_eq
          have h3 := List.append_inj_right h2 rfl
          simp at h3
        -- a sibling codeword exists at the optimum
        have hsibling : ∃ v ∈ ((w1, x) :: (w2, y) :: r0 :: rest').map Prod.snd,
            cstar v = (cstar u).dropLast ++ [!(cstar u).getLast hcune] := by
          by_contra hno
          push_neg at hno
          have hc1u : updCd cstar u ((cstar u).dropLast) u =
              (cstar u).dropLast := by simp [updCd]
          have hc1o : ∀ c, c ≠ u → updCd cstar u ((cstar u).dropLast) c =
              cstar c := fun c hcne' => by simp [updCd, hcne']
          have hne1 : NEOn (((w1, x) :: (w2, y) :: r0 :: rest').map Prod.snd)
              (updCd cstar u ((cstar u).dropLast)) := by
            intro c hc
            by_cases hcu' : c = u
            · rw [hcu', hc1u]; exact hpne
            · rw [hc1o c hcu']; exact hneS c hc
          have hpf1 : PFOn (((w1, x) :: (w2, y) :: r0 :: rest').map Prod.snd)
              (updCd cstar u ((cstar u).dropLast)) := by
            intro a1 ha1 b1 hb1 hab1
            by_cases hau : a1 = u
            · have hb1u : b1 ≠ u := fun h => hab1 (hau.trans h.symm)
              rw [hau, hc1u, hc1o b1 hb1u]
              intro hpre
              have hlenb : (cstar b1).length ≤ (cstar u).dropLast.length + 1 := by
                rw [hplen]
                exact humax b1 hb1
              have hplenle : (cstar u).dropLast.length ≤ (cstar b1).length :=
                hpre.length_le
              by_cases heq : (cstar b1).length = (cstar u).dropLast.length
              · have hb1p : (cstar u).dropLast = cstar b1 :=
                  List.IsPrefix.eq_of_length_le hpre (by omega)
                apply hpfS b1 hb1 u huS hb1u
                rw [← hb1p]
                conv_rhs => rw [hcu_eq]
                exact List.prefix_append _ _
              · have hlen1 : (cstar b1).length = (cstar u).dropLast.length + 1 := by
                  omega
                obtain ⟨bb, hbb⟩ := eq_snoc_of_prefix_succ hpre hlen1
                by_cases hbbl : bb = (cstar u).getLast hcune
                · have heq2 : cstar b1 = cstar u := by
                    rw [hbb, hbbl, ← hcu_eq]
                  exact cd_inj_of_PFOn hpfS hb1 huS hb1u heq2
                · have hbool : ∀ (a b : Bool), a ≠ b → a = !b := by decide
                  have hbb' : bb = !(cstar u).getLast hcune :=
                    hbool _ _ hbbl
                  exact hno b1 hb1 (by rw [hbb, hbb'])
            · by_cases hbu : b1 = u
              · have hau' : a1 ≠ u := hau
                rw [hbu, hc1o a1 hau', hc1u]
                intro hpre
                apply hpfS a1 ha1 u huS (fun h => hab1 (h.trans hbu.symm))
                refine hpre.trans ?_
                conv_rhs => rw [hcu_eq]
                exact List.prefix_append _ _
              · rw [hc1o a1 hau, hc1o b1 hbu]
                exact hpfS a1 ha1 b1 hb1 hab1
          -- strictly cheaper: contradiction with optimality
          obtain ⟨ku, hkuK, hku2⟩ := List.mem_map.mp huS
          obtain ⟨pre, post, hKeq⟩ := List.append_of_mem hkuK
          have hperm : ((w1, x) :: (w2, y) :: r0 :: rest').Perm
              (ku :: (pre ++ post)) := by
            rw [hKeq]
            exact List.perm_middle
          have hkuNotPP : ku ∉ pre ++ post := by
            have hnodupK : (ku :: (pre ++ post)).Nodup :=
              hperm.nodup (List.Nodup.of_map _ hnd)
            exact (List.nodup_cons.mp hnodupK).1
          have hppne : ∀ k ∈ pre ++ post, k.2 ≠ u := by
            intro k hk hk2
            have hkK : k ∈ (w1, x) :: (w2, y) :: r0 :: rest' := by
              rw [hKeq]
              simp at hk ⊢
              tauto
            have : k = ku := snd_inj_of_nodup hnd hkK hkuK (hk2.trans hku2.symm)
            exact hkuNotPP (this ▸ hk)
          have hcost1 : klCost ((w1, x) :: (w2, y) :: r0 :: rest')
              (updCd cstar u ((cstar u).dropLast)) <
              klCost ((w1, x) :: (w2, y) :: r0 :: rest') cstar := by
            rw [klCost_perm _ hperm, klCost_perm cstar hperm]
            rw [klCost_cons, klCost_cons]
            have hrest : klCost (pre ++ post)
                (updCd cstar u ((cstar u).dropLast)) =
                klCost (pre ++ post) cstar :=
              klCost_congr (fun k hk => hc1o k.2 (hppne k hk))
            rw [hrest, hku2, hc1u]
            have hkupos : 0 < ku.1 := hpos ku hkuK
            have hlt : ku.1 * (cstar u).dropLast.length <
                ku.1 * (cstar u).length :=
              Nat.mul_lt_mul_of_pos_left (by omega) hkupos
            omega
          have hge := hminimal _ hne1 hpf1
          omega
        obtain ⟨v, hvS, hv⟩ := hsibling
        have hvu : v ≠ u := by
          intro h
          rw [h] at hv
          exact hsib_ne_cu hv.symm
        -- swap x into the longest position
        have hcdax : swapCd cstar x u x = cstar u := swapCd_left cstar x u
        have hlen_cda : ∀ c ∈ ((w1, x) :: (w2, y) :: r0 :: rest').map Prod.snd,
            (swapCd cstar x u c).length ≤ (cstar u).length := by
          intro c hc
          exact humax _ (swapCh_mem hxS huS c hc)
        have hne_a : NEOn (((w1, x) :: (w2, y) :: r0 :: rest').map Prod.snd)
            (swapCd cstar x u) := NEOn_swap hxS huS hneS
        have hpf_a : PFOn (((w1, x) :: (w2, y) :: r0 :: rest').map Prod.snd)
            (swapCd cstar x u) := PFOn_swap hxS huS hpfS
        have hcost_a : klCost ((w1, x) :: (w2, y) :: r0 :: rest')
            (swapCd cstar x u) ≤
            klCost ((w1, x) :: (w2, y) :: r0 :: rest') cstar := by
          obtain ⟨ku, hkuK, hku2⟩ := List.mem_map.mp huS
          have hkuK' : (ku.1, u) ∈ (w1, x) :: (w2, y) :: r0 :: rest' := by
            have heq : ((ku.1, u) : Nat × Char) = ku := Prod.ext rfl hku2.symm
            rw [heq]
            exact hkuK
          exact klCost_swap_le hnd (by simp) hkuK' (hwx_min ku hkuK)
            (humax x hxS)
        -- after the swap some symbol other than x holds the sibling code
        have hpartner : ∃ w ∈ ((w1, x) :: (w2, y) :: r0 :: rest').map Prod.snd,
            w ≠ x ∧ swapCd cstar x u w =
              (cstar u).dropLast ++ [!(cstar u).getLast hcune] := by
          by_cases hvx : v = x
          · have hux : u ≠ x := fun h => hvu (hvx.trans h.symm)
            refine ⟨u, huS, hux, ?_⟩
            rw [swapCd_right, ← hvx]
            exact hv
          · refine ⟨v, hvS, hvx, ?_⟩
            rw [swapCd_other cstar hvx hvu]
            exact hv
        obtain ⟨w, hwS, hwx, hcdaw⟩ := hpartner
        -- swap y next to x
        have hxw : x ≠ w := fun h => hwx h.symm
        have hcd2x : swapCd (swapCd cstar x u) y w x = cstar u := by
          rw [swapCd_other _ hxy hxw]
          exact hcdax
        have hcd2y : swapCd (swapCd cstar x u) y w y =
            (cstar u).dropLast ++ [!(cstar u).getLast hcune] := by
          rw [swapCd_left]
          exact hcdaw
        have hne2 : NEOn (((w1, x) :: (w2, y) :: r0 :: rest').map Prod.snd)
            (swapCd (swapCd cstar x u) y w) := NEOn_swap hyS hwS hne_a
        have hpf2 : PFOn (((w1, x) :: (w2, y) :: r0 :: rest').map Prod.snd)
            (swapCd (swapCd cstar x u) y w) := PFOn_swap hyS hwS hpf_a
        have hlen_cd2 : ∀ c ∈ ((w1, x) :: (w2, y) :: r0 :: rest').map Prod.snd,
            (swapCd (swapCd cstar x u) y w c).length ≤ (cstar u).length := by
          intro c hc
          exact hlen_cda _ (swapCh_mem hyS hwS c hc)
        have hcost2 : klCost ((w1, x) :: (w2, y) :: r0 :: rest')
            (swapCd (swapCd cstar x u) y w) ≤
            klCost ((w1, x) :: (w2, y) :: r0 :: rest') (swapCd cstar x u) := by
          obtain ⟨kw, hkwK, hkw2⟩ := List.mem_map.mp hwS
          have hkwK' : (kw.1, w) ∈ (w1, x) :: (w2, y) :: r0 :: rest' := by
            have heq : ((kw.1, w) : Nat × Char) = kw := Prod.ext rfl hkw2.symm
            rw [heq]
            exact hkwK
          have hw2w : w2 ≤ kw.1 := by
            rcases List.mem_cons.mp hkwK with hk | hk
            · exfalso
              apply hwx
              rw [← hkw2, hk]
            · exact hwy_min kw hk
          have hlenyw : ((swapCd cstar x u) y).length ≤
              ((swapCd cstar x u) w).length := by
            rw [hcdaw, hsiblen, hplen]
            exact hlen_cda y hyS
          exact klCost_swap_le hnd (by simp) hkwK' hw2w hlenyw
        -- properties of the reduced problem
        have hK'perm : (kInsert (w1 + w2, x) (r0 :: rest')).Perm
            ((w1 + w2, x) :: r0 :: rest') := kInsert_perm _ _
        have hS'perm : ((kInsert (w1 + w2, x) (r0 :: rest')).map Prod.snd).Perm
            (x :: (r0 :: rest').map Prod.snd) := hK'perm.map _
        have hS'sub : ∀ c ∈ (kInsert (w1 + w2, x) (r0 :: rest')).map Prod.snd,
            c = x ∨ c ∈ (r0 :: rest').map Prod.snd :=
          fun c hc => List.mem_cons.mp (hS'perm.subset hc)
        have hrest_sub_S : ∀ c ∈ (r0 :: rest').map Prod.snd,
            c ∈ ((w1, x) :: (w2, y) :: r0 :: rest').map Prod.snd := by
          intro c hc
          simp at hc ⊢
          tauto
        have hS'S : ∀ c ∈ (kInsert (w1 + w2, x) (r0 :: rest')).map Prod.snd,
            c ∈ ((w1, x) :: (w2, y) :: r0 :: rest').map Prod.snd := by
          intro c hc
          rcases hS'sub c hc with h | h
          · rw [h]; exact hxS
          · exact hrest_sub_S c h
        have hS'ney : ∀ c ∈ (kInsert (w1 + w2, x) (r0 :: rest')).map Prod.snd,
            c ≠ y := by
          intro c hc
          rcases hS'sub c hc with h | h
          · rw [h]; exact hxy
          · exact fun hcy => hynr (hcy ▸ h)
        have hS'nex : ∀ c ∈ (r0 :: rest').map Prod.snd, c ≠ x :=
          fun c hc hcx => hxnr (hcx ▸ hc)
        have hK'sorted : (kInsert (w1 + w2, x) (r0 :: rest')).Sorted keyLE :=
          kInsert_sorted _ _ hs3
        have hK'nodup : ((kInsert (w1 + w2, x) (r0 :: rest')).map
            Prod.snd).Nodup := by
          apply hS'perm.symm.nodup
          rw [List.nodup_cons]
          refine ⟨hxnr, ?_⟩
          rw [List.nodup_cons, List.nodup_cons] at hndS
          exact hndS.2.2
        have hK'pos : ∀ k ∈ kInsert (w1 + w2, x) (r0 :: rest'), 0 < k.1 := by
          intro k hk
          rcases List.mem_cons.mp (hK'perm.subset hk) with hk' | hk'
          · rw [hk']
            have := hpos (w1, x) (by simp)
            simp at this ⊢
            omega
          · exact hpos k (by simp [hk'])
        have hK'len : (kInsert (w1 + w2, x) (r0 :: rest')).length ≤ n := by
          rw [kInsert_length]
          simp at hlen ⊢
          omega
        -- the merged competitor
        have hcd3x : updCd (swapCd (swapCd cstar x u) y w) x
            ((cstar u).dropLast) x = (cstar u).dropLast := by simp [updCd]
        have hcd3o : ∀ c, c ≠ x → updCd (swapCd (swapCd cstar x u) y w) x
            ((cstar u).dropLast) c = swapCd (swapCd cstar x u) y w c :=
          fun c h => by simp [updCd, h]
        have hne3 : NEOn ((kInsert (w1 + w2, x) (r0 :: rest')).map Prod.snd)
            (updCd (swapCd (swapCd cstar x u) y w) x ((cstar u).dropLast)) := by
          intro c hc
          rcases hS'sub c hc with h | h
          · rw [h, hcd3x]
            exact hpne
          · rw [hcd3o c (hS'nex c h)]
            exact hne2 c (hrest_sub_S c h)
        have hpf3 : PFOn ((kInsert (w1 + w2, x) (r0 :: rest')).map Prod.snd)
            (updCd (swapCd (swapCd cstar x u) y w) x ((cstar u).dropLast)) := by
          intro a1 ha1 b1 hb1 hab1
          by_cases hau : a1 = x
          · have hb1x : b1 ≠ x := fun h => hab1 (hau.trans h.symm)
            rw [hau, hcd3x, hcd3o b1 hb1x]
            intro hpre
            have hb1S : b1 ∈ ((w1, x) :: (w2, y) :: r0 :: rest').map Prod.snd :=
              hS'S b1 hb1
            have hb1y : b1 ≠ y := hS'ney b1 hb1
            have hlenb : (swapCd (swapCd cstar x u) y w b1).length ≤
                (cstar u).dropLast.length + 1 := by
              rw [hplen]
              exact hlen_cd2 b1 hb1S
            have hplenle : (cstar u).dropLast.length ≤
                (swapCd (swapCd cstar x u) y w b1).length := hpre.length_le
            by_cases heq : (swapCd (swapCd cstar x u) y w b1).length =
                (cstar u).dropLast.length
            · have hb1p : (cstar u).dropLast =
                  swapCd (swapCd cstar x u) y w b1 :=
                List.IsPrefix.eq_of_length_le hpre (by omega)
              apply hpf2 b1 hb1S x hxS hb1x
              rw [← hb1p, hcd2x]
              conv_rhs => rw [hcu_eq]
              exact List.prefix_append _ _
            · have hlen1 : (swapCd (swapCd cstar x u) y w b1).length =
                  (cstar u).dropLast.length + 1 := by omega
              obtain ⟨bb, hbb⟩ := eq_snoc_of_prefix_succ hpre hlen1
              by_cases hbbl : bb = (cstar u).getLast hcune
              · have heq2 : swapCd (swapCd cstar x u) y w b1 =
                    swapCd (swapCd cstar x u) y w x := by
                  rw [hbb, hbbl, hcd2x, ← hcu_eq]
                exact cd_inj_of_PFOn hpf2 hb1S hxS hb1x heq2
              · have hbool : ∀ (a b : Bool), a ≠ b → a = !b := by decide
                have hbb' : bb = !(cstar u).getLast hcune := hbool _ _ hbbl
                have heq2 : swapCd (swapCd cstar x u) y w b1 =
                    swapCd (swapCd cstar x u) y w y := by
                  rw [hbb, hbb', hcd2y]
                exact cd_inj_of_PFOn hpf2 hb1S hyS hb1y heq2
          · by_cases hbu : b1 = x
            · rw [hbu, hcd3o a1 hau, hcd3x]
              intro hpre
              apply hpf2 a1 (hS'S a1 ha1) x hxS (fun h => hau (h.trans rfl))
              rw [hcd2x]
              refine hpre.trans ?_
              conv_rhs => rw [hcu_eq]
              exact List.prefix_append _ _
            · rw [hcd3o a1 hau, hcd3o b1 hbu]
              exact hpf2 a1 (hS'S a1 ha1) b1 (hS'S b1 hb1) hab1
        -- cost bookkeeping for the merge
        have hxnotrest : ∀ k ∈ r0 :: rest', k.2 ≠ x := by
          intro k hk
          exact hS'nex k.2 (List.mem_map.mpr ⟨k, hk, rfl⟩)
        have hcost3 : klCost (kInsert (w1 + w2, x) (r0 :: rest'))
            (updCd (swapCd (swapCd cstar x u) y w) x ((cstar u).dropLast)) +
            w1 + w2 =
            klCost ((w1, x) :: (w2, y) :: r0 :: rest')
              (swapCd (swapCd cstar x u) y w) := by
          have hL : klCost ((w1 + w2, x) :: r0 :: rest')
              (updCd (swapCd (swapCd cstar x u) y w) x ((cstar u).dropLast)) =
              (w1 + w2) * ((updCd (swapCd (swapCd cstar x u) y w) x
                ((cstar u).dropLast)) x).length +
              klCost (r0 :: rest')
                (updCd (swapCd (swapCd cstar x u) y w) x
                  ((cstar u).dropLast)) :=
            klCost_cons _ _ _
          have hR1 : klCost ((w1, x) :: (w2, y) :: r0 :: rest')
              (swapCd (swapCd cstar x u) y w) =
              w1 * ((swapCd (swapCd cstar x u) y w) x).length +
              klCost ((w2, y) :: r0 :: rest')
                (swapCd (swapCd cstar x u) y w) :=
            klCost_cons _ _ _
          have hR2 : klCost ((w2, y) :: r0 :: rest')
              (swapCd (swapCd cstar x u) y w) =
              w2 * ((swapCd (swapCd cstar x u) y w) y).length +
              klCost (r0 :: rest') (swapCd (swapCd cstar x u) y w) :=
            klCost_cons _ _ _
          have hrest3 : klCost (r0 :: rest')
              (updCd (swapCd (swapCd cstar x u) y w) x ((cstar u).dropLast)) =
              klCost (r0 :: rest') (swapCd (swapCd cstar x u) y w) :=
            klCost_congr (fun k hk => hcd3o k.2 (hxnotrest k hk))
          rw [klCost_perm _ hK'perm, hL, hR1, hR2, hcd3x, hcd2x, hcd2y,
            hrest3, hsiblen]
          rw [show (cstar u).length = (cstar u).dropLast.length + 1 from
            hplen.symm]
          have hdistrib : (w1 + w2) * (cstar u).dropLast.length + w1 + w2 =
              w1 * ((cstar u).dropLast.length + 1) +
              w2 * ((cstar u).dropLast.length + 1) := by
            rw [Nat.add_mul, Nat.mul_succ, Nat.mul_succ]
            omega
          omega
        -- induction hypothesis on the reduced problem
        have hIH := ih (kInsert (w1 + w2, x) (r0 :: rest')) hK'len hK'sorted
          hK'nodup hK'pos _ hne3 hpf3
        have hfinal := hminimal cd hne hpf
        rw [hred]
        omega

/-! ### Cost of the tree actually built by `node_reducer` -/

theorem letter_distribution_ne_nil {s : List Char} (hs : s ≠ []) :
    letter_distribution s ≠ [] := by
  cases s with
  | nil => exact absurd rfl hs
  | cons c0 s0 =>
    intro h
    have hmem : c0 ∈ dkeys (letter_distribution (c0 :: s0)) :=
      (mem_dkeys_letter_distribution _ _).mpr (by simp)
    rw [h] at hmem
    simp at hmem

theorem huffman_root_cost (s : List Char) (hs : s ≠ []) :
    ∃ root, node_reducer (letter_distribution s) = .ok root ∧
      root.leavesOf.Perm (dkeys (letter_distribution s)) ∧
      root.leavesOf.Nodup ∧
      HTree.costF (fun c => s.count c) root =
        redCost (ksort ((dkeys (letter_distribution s)).map
          fun c => (s.count c, c))) := by
  have hnd := letter_distribution_nodup s
  have hfne := letter_distribution_ne_nil hs
  obtain ⟨L, hBuild, hPerm, hKeys⟩ := build_node_list_ok
    (letter_distribution s) [] ⟨by simp, by simp⟩ (by simp) hnd
  simp only [List.nil_append] at hPerm
  have hgL : EGood L := by
    apply EGood_perm hPerm.symm
    constructor
    · rw [allLeaves_map_leaf]; exact hnd
    · intro e he
      obtain ⟨p, _, rfl⟩ := List.mem_map.mp he
      simp [HTree.leavesOf]
  have hW : WInv (fun c => s.count c) L := by
    intro e he
    have hmem := hPerm.subset he
    obtain ⟨p, hp, rfl⟩ := List.mem_map.mp hmem
    obtain ⟨c, m⟩ := p
    show m = HTree.weightF (fun c => s.count c) (HTree.leaf c)
    have hval : m = s.count c := letter_distribution_val hp
    simp [HTree.weightF, HTree.leavesOf, hval]
  obtain ⟨L', hLoop, hPermLeaves, hgL', hlen⟩ := nr_loop_ok L.length L hgL
  have hLne : L ≠ [] := by
    intro h
    rw [h] at hPerm
    have hl := hPerm.length_eq
    simp at hl
    cases hfq : letter_distribution s with
    | nil => exact hfne hfq
    | cons q qs => rw [hfq] at hl; simp at hl
  obtain ⟨e, rfl⟩ := List.length_eq_one.mp (hlen (Nat.le_refl _) hLne)
  obtain ⟨hSum, _⟩ := nr_loop_cost (fun c => s.count c) L.length L [e] hgL hW
    (Nat.le_refl _) hLoop
  refine ⟨e.2.2, ?_, ?_, ?_, ?_⟩
  · simp only [node_reducer, build_node_list]
    rw [hBuild]
    simp only
    rw [hLoop]
  · have h1 : allLeaves [e] = e.2.2.leavesOf := by simp
    rw [← h1]
    refine hPermLeaves.trans ?_
    refine (allLeaves_perm hPerm).trans ?_
    rw [allLeaves_map_leaf]
  · have h1 : allLeaves [e] = e.2.2.leavesOf := by simp
    have h2 : (allLeaves [e]).Nodup := hgL'.1
    rwa [h1] at h2
  · have hSum1 : sumCost (fun c => s.count c) [e] =
        HTree.costF (fun c => s.count c) e.2.2 := by
      simp [sumCost, entryCost]
    have hSum0 : sumCost (fun c => s.count c) L = 0 := by
      apply List.sum_eq_zero
      intro z hz
      obtain ⟨e', he', rfl⟩ := List.mem_map.mp hz
      obtain ⟨p, _, rfl⟩ := List.mem_map.mp (hPerm.subset he')
      simp [entryCost, HTree.costF]
    have hKsort : ksort ((dkeys (letter_distribution s)).map
        fun c => (s.count c, c)) = L.map keyOf := by
      have hmc : (dkeys (letter_distribution s)).map
          (fun c => (s.count c, c)) =
          (letter_distribution s).map fun p => (p.2, p.1) := by
        rw [dkeys, List.map_map]
        apply List.map_congr_left
        intro p hp
        obtain ⟨c, m⟩ := p
        have hval : m = s.count c := letter_distribution_val hp
        simp [Function.comp, hval]
      rw [hmc]
      rw [show ksort ((letter_distribution s).map fun p => (p.2, p.1)) =
          (letter_distribution s).foldl
            (fun ks p => kInsert (p.2, p.1) ks) [] by
        unfold ksort
        rw [List.foldl_map]]
      rw [hKeys]
      rfl
    rw [hKsort, ← hSum1, hSum, hSum0]
    omega

/-- C8.  For every non-empty string `s`, the code table `huffman_code(s)`
builds (fresh state) has minimal expected code length, weighted by the
character counts of `s`, among all prefix-free assignments of non-empty
binary codes to the distinct characters of `s`. -/
theorem huffman_code_optimal : ∀ (s : List Char), s ≠ [] →
    ∃ T st', huffman_code s [] = .ok (T, st') ∧
      ∀ cd : Char → List Bool,
        NEOn (dkeys (letter_distribution s)) cd →
        PFOn (dkeys (letter_distribution s)) cd →
        tableCost (fun c => s.count c) T ≤
          sCost (fun c => s.count c) (dkeys (letter_distribution s)) cd := by
  intro s hs
  obtain ⟨root, hroot, hperm, hnodup, hcost⟩ := huffman_root_cost s hs
  cases root with
  | leaf c =>
    refine ⟨[(c, [true])], [], ?_, ?_⟩
    · simp [huffman_code, hroot, code_assigner]
    · intro cd hne _
      have hkeys : dkeys (letter_distribution s) = [c] := by
        have hp : (dkeys (letter_distribution s)).Perm [c] := by
          refine List.Perm.symm ?_
          simpa [HTree.leavesOf] using hperm
        exact List.perm_singleton.mp hp
      rw [hkeys]
      have hcs : c ∈ s := (mem_dkeys_letter_distribution s c).mp
        (hkeys ▸ (by simp))
      have hpos : 0 < s.count c := List.count_pos_iff.mpr hcs
      have hlen : 1 ≤ (cd c).length :=
        List.length_pos.mpr (hne c (hkeys ▸ (by simp)))
      have hmul : s.count c * 1 ≤ s.count c * (cd c).length :=
        Nat.mul_le_mul_left _ hlen
      simp [tableCost, sCost] at hmul ⊢
      omega
  | node l r =>
    have hkeysT : dkeys (HTree.node l r).pathsOf = (HTree.node l r).leavesOf := by
      rw [dkeys, pathsOf_map_fst]
    have hndp : (dkeys (HTree.node l r).pathsOf).Nodup := by
      rw [hkeysT]; exact hnodup
    have hT : code_assigner (HTree.node l r) [] [] =
        (HTree.node l r).pathsOf := by
      rw [code_assigner_node_eq, assignAll_fresh _ _ _ hndp (by simp)]
      simp only [List.nil_append]
      exact List.map_id'' (fun p => by simp) _
    refine ⟨(HTree.node l r).pathsOf, (HTree.node l r).pathsOf, ?_, ?_⟩
    · simp [huffman_code, hroot, hT]
    · intro cd hne hpf
      rw [tableCost_pathsOf, hcost]
      have hKperm : (ksort ((dkeys (letter_distribution s)).map
          fun c => (s.count c, c))).Perm
          ((dkeys (letter_distribution s)).map fun c => (s.count c, c)) :=
        ksort_perm _
      have hSndPerm : ((ksort ((dkeys (letter_distribution s)).map
          fun c => (s.count c, c))).map Prod.snd).Perm
          (dkeys (letter_distribution s)) := by
        have h1 := hKperm.map Prod.snd
        rwa [List.map_map, show (Prod.snd ∘ fun c => ((s.count c, c) :
          Nat × Char)) = id from rfl, List.map_id] at h1
      have hKnodup : ((ksort ((dkeys (letter_distribution s)).map
          fun c => (s.count c, c))).map Prod.snd).Nodup :=
        hSndPerm.symm.nodup (letter_distribution_nodup s)
      have hKpos : ∀ k ∈ ksort ((dkeys (letter_distribution s)).map
          fun c => (s.count c, c)), 0 < k.1 := by
        intro k hk
        obtain ⟨c, hc, rfl⟩ := List.mem_map.mp (hKperm.subset hk)
        exact List.count_pos_iff.mpr
          ((mem_dkeys_letter_distribution s c).mp hc)
      have hKne : NEOn ((ksort ((dkeys (letter_distribution s)).map
          fun c => (s.count c, c))).map Prod.snd) cd :=
        fun a ha => hne a (hSndPerm.subset ha)
      have hKpf : PFOn ((ksort ((dkeys (letter_distribution s)).map
          fun c => (s.count c, c))).map Prod.snd) cd :=
        fun a ha b hb hab => hpf a (hSndPerm.subset ha) b (hSndPerm.subset hb)
          hab
      refine Nat.le_trans (wOptK _ _ (Nat.le_refl _) (ksort_sorted _)
        hKnodup hKpos cd hKne hKpf) ?_
      rw [klCost_perm cd hKperm]
      rw [show klCost ((dkeys (letter_distribution s)).map
          fun c => (s.count c, c)) cd =
          sCost (fun c => s.count c) (dkeys (letter_distribution s)) cd by
        unfold klCost sCost
        rw [List.map_map]
        rfl]

/-- Witness for C8 at the concrete input `"ab"`. -/
theorem huffman_code_optimal_witness :
    (['a', 'b'] : List Char) ≠ [] ∧
    ∃ T st', huffman_code ['a', 'b'] [] = .ok (T, st') ∧
      ∀ cd : Char → List Bool,
        NEOn (dkeys (letter_distribution ['a', 'b'])) cd →
        PFOn (dkeys (letter_distribution ['a', 'b'])) cd →
        tableCost (fun c => List.count c ['a', 'b']) T ≤
          sCost (fun c => List.count c ['a', 'b'])
            (dkeys (letter_distribution ['a', 'b'])) cd :=
  ⟨by decide, huffman_code_optimal ['a', 'b'] (by decide)⟩

end HuffmanCode
